import Mathlib

/-!
# Verification of the BEJ (Binary Encoded JSON) codec

A shallow embedding of the `bej-parser` repository: the dictionary model
(`bej_dictionary.c`), the encoder (`bej_encode.c`), the decoder
(`bej_decode.c`) and the JSON text parser (`json.c`), together with proofs
about the embedded definitions.

Modelling conventions:

* Byte streams (`FILE*` contents) are `List Nat`, every element a byte
  value `< 256`; reads of possibly out-of-range positions return 0 and
  byte reads are masked with `% 256`, mirroring the `uint8_t` buffers of
  the source.
* C strings are NUL-free `List Nat` byte lists; `strcmp` equality is list
  equality, and a `NULL` string pointer is `Option.none`.
* Functions that can fail (C functions returning 0/`NULL`) return `Option`.
* The recursive encoder, decoder and JSON parser take an explicit fuel
  argument so that every definition is structurally recursive and
  kernel-computable; the C recursion is bounded by the JSON nesting depth
  (respectively input length), so any fuel at least that large makes the
  model agree with the source.
* JSON numbers are `double` in the source; the model restricts them to
  exact 64-bit integer values (`Int`), which covers every number the
  decoder can produce (it prints only `int64_t` values).
-/

namespace Bej

/-! ## Definitions: the shallow embedding of the source -/

/-- Read one byte of a buffer: out-of-range reads give 0, values are masked
to `uint8_t` range. -/
def getByte (bytes : List Nat) (i : Nat) : Nat :=
  bytes.getD i 0 % 256

/-- Source: `read_u16` in `bej_dictionary.c` — little-endian 16-bit load. -/
def read_u16 (bytes : List Nat) (p : Nat) : Nat :=
  getByte bytes p + 256 * getByte bytes (p + 1)

/-- Little-endian value of a byte list (least significant byte first), as
assembled by the decoder's `value |= bytes[i] << (8*i)` loops. -/
def leVal : List Nat → Nat
  | [] => 0
  | b :: t => b % 256 + 256 * leVal t

/-- The minimal little-endian byte string of `v`: the source loop
`while (v) { tmp[++n] = v & 0xFF; v >>= 8; }`, written with an explicit
iteration bound (the C loop runs at most 8 times on a `uint64_t`). -/
def leBytesAux : Nat → Nat → List Nat
  | _, 0 => []
  | v, f + 1 => if v = 0 then [] else v % 256 :: leBytesAux (v / 256) f

/-- The `n` little-endian bytes of `v` (fixed width), byte `j` being
`(v >> 8*j) & 0xFF`. -/
def leBytesFixed (v n : Nat) : List Nat :=
  (List.range n).map (fun j => v / 256 ^ j % 256)

/-- Source: `pack_nnint` in `bej_encode.c`. Writes `01 00` for zero,
otherwise a length byte followed by the minimal little-endian bytes. The
argument is a `uint64_t`, hence the `% 2^64`. -/
def pack_nnint (value : Nat) : List Nat :=
  let v := value % 2 ^ 64
  if v = 0 then [1, 0]
  else
    let bs := leBytesAux v 8
    bs.length :: bs

/-- Source: `unpack_nnint` in `bej_decode.c`. Reads a length byte (failing
when it exceeds 8 or the stream is empty), then that many bytes, assembled
little-endian; returns the value and the unconsumed tail. -/
def unpack_nnint (s : List Nat) : Option (Nat × List Nat) :=
  match s with
  | [] => none
  | num_bytes :: rest =>
    if num_bytes > 8 then none
    else if rest.length < num_bytes then none
    else some (leVal (rest.take num_bytes), rest.drop num_bytes)

/-- The `uint64_t` bit pattern of an `int64_t` value: `(uint64_t)value`. -/
def toU64 (i : Int) : Nat := (i % (2 ^ 64 : Int)).toNat

/-- Source: the `while (num > 1)` loop of `pack_integer_value` in
`bej_encode.c`. `u` is the 64-bit pattern whose bytes fill `buf`; the loop
drops the top byte while it is a pure sign extension (`0x00` over a clear
top bit, or `0xFF` over a set top bit of the next byte down). The
recursion counts `num` down exactly as the loop does. -/
def intShrink (value : Int) (u : Nat) : Nat → Nat
  | 0 => 0
  | 1 => 1
  | num + 2 =>
    if (0 ≤ value ∧ u / 256 ^ (num + 1) % 256 = 0 ∧ u / 256 ^ num % 256 < 128)
        ∨ (value < 0 ∧ u / 256 ^ (num + 1) % 256 = 255 ∧ 128 ≤ u / 256 ^ num % 256)
    then intShrink value u (num + 1)
    else num + 2

/-- Source: `pack_integer_value` in `bej_encode.c` — NNINT byte width
followed by the retained little-endian bytes of the two's-complement
pattern. -/
def pack_integer_value (value : Int) : List Nat :=
  let u := toU64 value
  let num := intShrink value u 8
  pack_nnint num ++ leBytesFixed u num

/-- Source: `unpack_integer_value` in `bej_decode.c`. Reads an NNINT length
(rejecting 0 and anything above 8), the payload bytes, assembles them
little-endian and sign-extends from the top bit of the last byte. The C
accumulates into an `int64_t`, so for `val_len = 8` the two's-complement
reinterpretation happens implicitly; in both cases the result is
`w - 2^(8*len)` exactly when the top byte has its high bit set. -/
def unpack_integer_value (s : List Nat) : Option (Int × List Nat) :=
  match unpack_nnint s with
  | none => none
  | some (val_len, rest) =>
    if val_len = 0 ∨ val_len > 8 then none
    else if rest.length < val_len then none
    else
      let bs := rest.take val_len
      let w := leVal bs
      let value : Int :=
        if 128 ≤ bs.getD (val_len - 1) 0 % 256 then (w : Int) - 2 ^ (8 * val_len)
        else (w : Int)
      some (value, rest.drop val_len)

/-- Representability of `i` in `n` two's-complement (signed) bytes. -/
def sfits (i : Int) (n : Nat) : Prop :=
  -(2 ^ (8 * n - 1) : Int) ≤ i ∧ i < (2 ^ (8 * n - 1) : Int)

/-- Source: `bej_dictionary_t` — a loaded dictionary owns its raw byte
buffer; its `size` field always equals the buffer length. -/
structure bej_dictionary where
  bytes : List Nat
deriving DecidableEq, Repr

/-- Source: `bej_dict_stream_t`. `child_count` is a C `int`: `-1` encodes
the unbounded wildcard cursor. -/
structure bej_dict_stream where
  bytes : List Nat
  index : Nat
  child_count : Int
  current_entry : Nat
deriving DecidableEq, Repr

/-- Source: `bej_dict_entry_t`. `name` is `none` for a `NULL` name
pointer. -/
structure bej_dict_entry where
  format : Nat
  flags : Nat
  sequence : Nat
  child_pointer : Nat
  child_count : Nat
  name : Option (List Nat)
deriving DecidableEq, Repr

/-- A NUL-terminated C string read out of the buffer at `off` (the bytes up
to the first zero byte). -/
def readCStr (bytes : List Nat) (off : Nat) : List Nat :=
  ((bytes.drop off).takeWhile (fun b => b % 256 ≠ 0)).map (· % 256)

/-- Source: `read_dictionary_header`'s `entry_count` read at offset 2. -/
def entryCountOf (d : bej_dictionary) : Nat := read_u16 d.bytes 2

/-- Source: `bej_dict_stream_init` — position the cursor on the root entry
at offset 12 (count 1) when the header validates (`size ≥ 12` and
`12 + entry_count * 10 ≤ size`), otherwise leave it empty. -/
def bej_dict_stream_init (d : bej_dictionary) : bej_dict_stream :=
  if 12 ≤ d.bytes.length ∧ 12 + entryCountOf d * 10 ≤ d.bytes.length then
    { bytes := d.bytes, index := 12, child_count := 1, current_entry := 0 }
  else
    { bytes := d.bytes, index := 0, child_count := 0, current_entry := 0 }

/-- Source: `bej_dict_stream_init_subset`. Both parameters are `uint16_t`
in C, hence the masking; the count `0xFFFF` selects the unbounded wildcard
(`child_count = -1`). A `NULL` dictionary gives a cursor over no bytes. -/
def bej_dict_stream_init_subset (dict : Option bej_dictionary)
    (offset child_count : Nat) : bej_dict_stream :=
  { bytes := match dict with | some d => d.bytes | none => []
    index := offset % 65536
    child_count := if child_count % 65536 = 65535 then -1 else (child_count % 65536 : Nat)
    current_entry := 0 }

/-- Source: `bej_dict_stream_has_entry`. -/
def bej_dict_stream_has_entry (s : bej_dict_stream) : Bool :=
  if s.child_count < 0 then s.index + 10 ≤ s.bytes.length
  else (s.current_entry : Int) < s.child_count

/-- Decoding of one packed 10-byte entry at `index` (the body of
`bej_dict_stream_next`). -/
def decodeEntryAt (bytes : List Nat) (index : Nat) : bej_dict_entry :=
  let format_flags := getByte bytes index
  let name_length := getByte bytes (index + 7)
  let name_offset := read_u16 bytes (index + 8)
  { format := format_flags / 16
    flags := format_flags % 16
    sequence := read_u16 bytes (index + 1)
    child_pointer := read_u16 bytes (index + 3)
    child_count := read_u16 bytes (index + 5)
    name := if 0 < name_length ∧ name_offset < bytes.length
      then some (readCStr bytes name_offset) else none }

/-- Source: `bej_dict_stream_next` — bounds checks, entry decode, cursor
advance (`current_entry` only counts in bounded mode). -/
def bej_dict_stream_next (s : bej_dict_stream) :
    Option (bej_dict_entry × bej_dict_stream) :=
  if ¬ bej_dict_stream_has_entry s then none
  else if s.bytes.length < s.index + 10 then none
  else
    some (decodeEntryAt s.bytes s.index,
      { s with index := s.index + 10
               current_entry :=
                 if 0 ≤ s.child_count then s.current_entry + 1 else s.current_entry })

/-- The linear scan of `bej_dict_find_child_by_name` (and the identical
loop inlined in `pack_enum_value`), written with a fuel bound that
dominates every possible iteration count of the cursor. -/
def findNameLoop : Nat → bej_dict_stream → List Nat → Option bej_dict_entry
  | 0, _, _ => none
  | fuel + 1, s, name =>
    match bej_dict_stream_next s with
    | none => none
    | some (e, s') =>
      match e.name with
      | some nm => if nm = name then some e else findNameLoop fuel s' name
      | none => findNameLoop fuel s' name

/-- Source: `bej_dict_find_child_by_name` (fails on a `NULL` dictionary). -/
def bej_dict_find_child_by_name (dict : Option bej_dictionary)
    (offset child_count : Nat) (name : List Nat) : Option bej_dict_entry :=
  match dict with
  | none => none
  | some d =>
    findNameLoop (d.bytes.length + 65537)
      (bej_dict_stream_init_subset (some d) offset child_count) name

/-- The linear scan of `get_entry_by_seq` in `bej_decode.c`. -/
def findSeqLoop : Nat → bej_dict_stream → Nat → Option bej_dict_entry
  | 0, _, _ => none
  | fuel + 1, s, seq =>
    match bej_dict_stream_next s with
    | none => none
    | some (e, s') => if e.sequence = seq then some e else findSeqLoop fuel s' seq

/-- Source: `get_entry_by_seq` in `bej_decode.c` (fails on a `NULL`
dictionary). -/
def get_entry_by_seq (dict : Option bej_dictionary)
    (child_ptr child_count : Nat) (seq : Nat) : Option bej_dict_entry :=
  match dict with
  | none => none
  | some d =>
    findSeqLoop (d.bytes.length + 65537)
      (bej_dict_stream_init_subset (some d) child_ptr child_count) seq

/-- Source: `bej_dictionary_load`, on the contents of the opened file:
fails on an empty file (`ftell ≤ 0`) and on a header shorter than 12 bytes
(`validate_dictionary_header`); every other content loads. Allocation
failures are not modelled. -/
def bej_dictionary_load (file_bytes : List Nat) : Option bej_dictionary :=
  if file_bytes.length = 0 then none
  else if ¬ 12 ≤ file_bytes.length then none
  else some ⟨file_bytes⟩

inductive json_value where
  | null
  | bool (b : Bool)
  | number (n : Int)
  | string (s : List Nat)
  | array (items : List json_value)
  | object (entries : List (List Nat × json_value))

/-- Source: `pack_sfl` — sequence NNINT, format byte (`format << 4` as
`uint8_t`), length NNINT. -/
def pack_sfl (seq_with_selector format len : Nat) : List Nat :=
  pack_nnint seq_with_selector ++ [format * 16 % 256] ++ pack_nnint len

/-- Source: `pack_string_value` — NNINT of `strlen + 1`, then the bytes
including the NUL terminator. -/
def pack_string_value (str : List Nat) : List Nat :=
  pack_nnint (str.length + 1) ++ str ++ [0]

/-- Source: `pack_boolean_value`. -/
def pack_boolean_value (b : Bool) : List Nat :=
  pack_nnint 1 ++ [if b then 1 else 0]

/-- Source: `pack_enum_value`. Scans the entry's children for the name
(the inlined loop is identical to `bej_dict_find_child_by_name`); the
matched child's sequence is taken as a `uint16_t`. The payload is the
NNINT of `n` — the total byte length of the inner NNINT encoding of the
sequence — followed by that inner NNINT (`tmp`). -/
def pack_enum_value (dict : Option bej_dictionary) (entry : bej_dict_entry)
    (enum_name : List Nat) : Option (List Nat) :=
  match bej_dict_find_child_by_name dict entry.child_pointer entry.child_count
      enum_name with
  | none => none
  | some v =>
    let value := v.sequence
    let tmp := if value = 0 then [1, 0]
      else (leBytesAux value 2).length :: leBytesAux value 2
    some (pack_nnint tmp.length ++ tmp)

/-- The `entry->name[0] == '@'` test (`'@'` is byte 64). A `NULL` name
would be dereferenced by the C code; the model treats it as not-`@`, a
path no claim exercises. -/
def nameStartsAt (e : bej_dict_entry) : Bool :=
  match e.name with
  | some (c :: _) => c = 64
  | _ => false

/-- The name-resolution step shared verbatim by the two loops of
`encode_properties` (counting pass and emission pass): pick the dictionary
by the `@` key prefix, the subset bounds (offset 12-free: the source
passes offset **0** and the annotation dictionary's byte size as the
count), and return the resolved child with its selector. -/
def resolveProp (key : List Nat) (parent : bej_dict_entry)
    (schema : bej_dictionary) (annot : Option bej_dictionary) :
    Option (bej_dict_entry × Nat) :=
  let selector : Nat := if key.headD 0 = 64 then 1 else 0
  let dict_to_search : Option bej_dictionary :=
    if selector = 1 then annot else some schema
  let child_ptr : Nat := if selector = 1 then 0 else parent.child_pointer
  let child_cnt : Nat := if selector = 1 then
      (match annot with | some a => a.bytes.length | none => 0)
    else parent.child_count
  match dict_to_search with
  | none => none
  | some d =>
    match bej_dict_find_child_by_name (some d) child_ptr child_cnt key with
    | none => none
    | some child => some (child, selector)

/-- The counting pass of `encode_properties` (first `for` loop). -/
def countResolved (entries : List (List Nat × json_value))
    (parent : bej_dict_entry) (schema : bej_dictionary)
    (annot : Option bej_dictionary) : Nat :=
  List.foldl
    (fun acc kv => if (resolveProp kv.1 parent schema annot).isSome
      then acc + 1 else acc) 0 entries

/-- The emission pass of `encode_properties` (second `for` loop): resolved
properties are encoded with `ev` (the fuel-indexed `encode_value`),
unresolved ones are skipped. -/
def encodePropsBody (ev : bej_dict_entry → Nat → json_value → Option (List Nat)) :
    List (List Nat × json_value) → bej_dict_entry → bej_dictionary →
    Option bej_dictionary → Option (List Nat)
  | [], _, _, _ => some []
  | (k, v) :: rest, parent, schema, annot =>
    match resolveProp k parent schema annot with
    | none => encodePropsBody ev rest parent schema annot
    | some (child, selector) =>
      match ev child selector v with
      | none => none
      | some bytes =>
        match encodePropsBody ev rest parent schema annot with
        | none => none
        | some tail => some (bytes ++ tail)

/-- Source: `encode_properties` — fails on a non-object, then NNINT count
of resolved properties followed by each resolved property's encoding. -/
def encode_properties (ev : bej_dict_entry → Nat → json_value → Option (List Nat))
    (jv : json_value) (parent : bej_dict_entry) (schema : bej_dictionary)
    (annot : Option bej_dictionary) : Option (List Nat) :=
  match jv with
  | .object entries =>
    match encodePropsBody ev entries parent schema annot with
    | none => none
    | some body =>
      some (pack_nnint (countResolved entries parent schema annot) ++ body)
  | _ => none

/-- The element loop of `encode_array_payload`: each element is encoded
against the archetype entry with its `sequence` overwritten by the
element's index; `selector` mirrors the array's own dictionary. -/
def encodeArrayItems (ev : bej_dict_entry → Nat → json_value → Option (List Nat))
    (element_entry : bej_dict_entry) (selector : Nat) :
    Nat → List json_value → Option (List Nat)
  | _, [] => some []
  | idx, item :: rest =>
    match ev { element_entry with sequence := idx } selector item with
    | none => none
    | some bytes =>
      match encodeArrayItems ev element_entry selector (idx + 1) rest with
      | none => none
      | some tail => some (bytes ++ tail)

/-- Source: `encode_array_payload`. The C code reads
`json_array->data.array` without a type check (undefined behaviour on a
non-array); the model fails instead, a path no claim exercises. -/
def encode_array_payload (ev : bej_dict_entry → Nat → json_value → Option (List Nat))
    (array_entry : bej_dict_entry) (jv : json_value) (schema : bej_dictionary)
    (annot : Option bej_dictionary) : Option (List Nat) :=
  let dict_to_use := if nameStartsAt array_entry then annot else some schema
  match jv with
  | .array items =>
    match bej_dict_stream_next (bej_dict_stream_init_subset dict_to_use
        array_entry.child_pointer array_entry.child_count) with
    | none => none
    | some (element_entry, _) =>
      let selector : Nat := if nameStartsAt array_entry then 1 else 0
      match encodeArrayItems ev element_entry selector 0 items with
      | none => none
      | some body => some (pack_nnint items.length ++ body)
  | _ => none

/-- The `switch (entry->format)` block of `encode_value`, producing the
payload written into the scratch buffer. Format codes: SET 0, ARRAY 1,
NULL 2, INTEGER 3, ENUM 4, STRING 5, BOOLEAN 7; all others fail. `ev` is
the next-level `encode_value` for the recursive SET/ARRAY cases. -/
def encode_payload (schema : bej_dictionary) (annot : Option bej_dictionary)
    (ev : bej_dict_entry → Nat → json_value → Option (List Nat))
    (entry : bej_dict_entry) (selector : Nat) (jv : json_value) :
    Option (List Nat) :=
  match entry.format with
  | 0 => encode_properties ev jv entry schema annot
  | 1 => encode_array_payload ev entry jv schema annot
  | 3 => match jv with
    | .number nv => some (pack_integer_value nv)
    | _ => none
  | 5 => match jv with
    | .string s => some (pack_string_value s)
    | _ => none
  | 7 => match jv with
    | .bool b => some (pack_boolean_value b)
    | _ => none
  | 4 =>
    let dict_to_use := if selector ≠ 0 then annot else some schema
    match jv with
    | .string s => pack_enum_value dict_to_use entry s
    | _ => none
  | 2 => some []
  | _ => none

/-- Source: `encode_value` — the central dispatcher. Buffers the payload,
measures it, then emits `SFL((sequence << 1) | selector, format, length)`
followed by the payload. The fuel argument makes the mutual recursion
structural; the C recursion depth is the JSON nesting depth. -/
def encode_value (schema : bej_dictionary) (annot : Option bej_dictionary) :
    Nat → bej_dict_entry → Nat → json_value → Option (List Nat)
  | 0, _, _, _ => none
  | fuel + 1, entry, selector, jv =>
    match encode_payload schema annot (encode_value schema annot fuel) entry
        selector jv with
    | none => none
    | some payload =>
      some (pack_sfl (2 * entry.sequence + selector) entry.format payload.length
        ++ payload)

/-- Source: `bej_encode_stream` — 7-byte header, root entry from the
full-walk cursor, outer `SFL(0, SET, len)` and the root object's
payload. On failure the C call returns 0 and its partial output is
discarded; the model returns `none`. -/
def bej_encode_stream (fuel : Nat) (json_data : json_value)
    (schema : bej_dictionary) (annot : Option bej_dictionary) :
    Option (List Nat) :=
  match bej_dict_stream_next (bej_dict_stream_init schema) with
  | none => none
  | some (root_entry, _) =>
    match encode_properties (encode_value schema annot fuel) json_data root_entry
        schema annot with
    | none => none
    | some payload =>
      some ([0x00, 0xF0, 0xF1, 0xF1, 0x00, 0x00, 0x00]
        ++ pack_sfl 0 0 payload.length ++ payload)

/-- The object restricted to the properties that resolve in the applicable
dictionary. -/
def filterResolved (entries : List (List Nat × json_value))
    (parent : bej_dict_entry) (schema : bej_dictionary)
    (annot : Option bej_dictionary) : List (List Nat × json_value) :=
  entries.filter (fun kv => (resolveProp kv.1 parent schema annot).isSome)

/-- Source: `unpack_sfl` — sequence NNINT, format byte (upper nibble),
length NNINT. -/
def unpack_sfl (s : List Nat) : Option (Nat × Nat × Nat × List Nat) :=
  match unpack_nnint s with
  | none => none
  | some (seq, r1) =>
    match r1 with
    | [] => none
    | format_and_flags :: r2 =>
      match unpack_nnint r2 with
      | none => none
      | some (length, r3) => some (seq, format_and_flags % 256 / 16, length, r3)

/-- Source: `decode_name` — prints `"name":` when the entry has a name,
nothing otherwise. Byte 34 is `"`, byte 58 is `:`. -/
def decode_name (entry : bej_dict_entry) : List Nat :=
  match entry.name with
  | some nm => [34] ++ nm ++ [34, 58]
  | none => []

/-- Decimal ASCII of a natural number (the digits `fprintf` produces);
fuel 20 covers every `uint64_t`. -/
def natToTextAux : Nat → Nat → List Nat
  | 0, _ => []
  | f + 1, n => if n = 0 then [] else natToTextAux f (n / 10) ++ [48 + n % 10]

/-- Decimal ASCII of an `int64_t` as printed by `fprintf("%" PRId64)`. -/
def intToText (i : Int) : List Nat :=
  if i = 0 then [48]
  else if i < 0 then 45 :: natToTextAux 20 (-i).toNat
  else natToTextAux 20 i.toNat

/-- Source: `unpack_integer_value`'s printing step — the decoded value in
decimal. -/
def unpack_integer_text (s : List Nat) : Option (List Nat × List Nat) :=
  match unpack_integer_value s with
  | none => none
  | some (v, rest) => some (intToText v, rest)

/-- Source: `unpack_string_value`. Reads the NNINT byte count and the
bytes; the last byte is overwritten with NUL and the buffer is printed
with `%s`, so the output is the bytes before the first NUL among the
first `len - 1`. Byte 34 is `"`. -/
def unpack_string_text (s : List Nat) : Option (List Nat × List Nat) :=
  match unpack_nnint s with
  | none => none
  | some (str_len, rest) =>
    if str_len = 0 then some ([34, 34], rest)
    else if rest.length < str_len then none
    else
      some ([34] ++ (((rest.take str_len).take (str_len - 1)).takeWhile
          (fun b => b % 256 ≠ 0)).map (· % 256) ++ [34],
        rest.drop str_len)

/-- Source: `unpack_boolean_value` — NNINT length must be 1, then one
byte; zero prints `false`, anything else `true`. -/
def unpack_boolean_text (s : List Nat) : Option (List Nat × List Nat) :=
  match unpack_nnint s with
  | none => none
  | some (bool_len, rest) =>
    if bool_len ≠ 1 then none
    else match rest with
      | [] => none
      | b :: r2 =>
        some (if b % 256 ≠ 0 then [116, 114, 117, 101] else [102, 97, 108, 115, 101],
          r2)

/-- Source: `unpack_enum_value`. Reads the leading NNINT length field —
which is never used again — then the NNINT value, and scans the entry's
children for that sequence (the inlined loop is `get_entry_by_seq`; a
`NULL` dictionary likewise yields no match). A `NULL` child name would be
printed by `%s`; the model prints it empty, a path no claim exercises. -/
def unpack_enum_text (dict : Option bej_dictionary) (entry : bej_dict_entry)
    (s : List Nat) : Option (List Nat × List Nat) :=
  match unpack_nnint s with
  | none => none
  | some (_len, r1) =>
    match unpack_nnint r1 with
    | none => none
    | some (enum_val, r2) =>
      match get_entry_by_seq dict entry.child_pointer entry.child_count enum_val with
      | none => none
      | some enum_entry => some ([34] ++ enum_entry.name.getD [] ++ [34], r2)

/-- Source: the property loop of `bej_decode_stream_internal`, counting
down the NNINT property count. `dv` is the next-level `decode_value`.
Byte 44 is `,`. -/
def bej_decode_stream_internal (annot : Option bej_dictionary)
    (dv : bej_dict_entry → Nat → List Nat → Option (List Nat × List Nat))
    (current_dict : Option bej_dictionary) (child_ptr child_count : Nat)
    (add_name : Bool) : Nat → List Nat → Option (List Nat × List Nat)
  | 0, input => some ([], input)
  | i + 1, input =>
    match unpack_sfl input with
    | none => none
    | some (seq, _format, length, r1) =>
      let seq_num := seq / 2
      let selector := seq % 2
      match (if selector = 0 then
          get_entry_by_seq current_dict child_ptr child_count seq_num
        else match annot with
          | some a => get_entry_by_seq (some a) 0 a.bytes.length seq_num
          | none => none) with
      | none => none
      | some entry =>
        match dv entry length r1 with
        | none => none
        | some (valText, r2) =>
          match bej_decode_stream_internal annot dv current_dict child_ptr
              child_count add_name i r2 with
          | none => none
          | some (tailText, r3) =>
            some ((if add_name then decode_name entry else []) ++ valText
              ++ (if i = 0 then [] else [44]) ++ tailText, r3)

/-- Source: `decode_set`. Byte 123 is `{`, 125 is `}`. The source ignores
the return status of the inner `bej_decode_stream_internal` call; the
model propagates the failure instead — a divergence only reachable on
malformed streams that no claim exercises. -/
def decode_set (schema : bej_dictionary) (annot : Option bej_dictionary)
    (dv : bej_dict_entry → Nat → List Nat → Option (List Nat × List Nat))
    (entry : bej_dict_entry) (input : List Nat) : Option (List Nat × List Nat) :=
  match unpack_nnint input with
  | none => none
  | some (count, r1) =>
    let dict_for_children : Option bej_dictionary :=
      if nameStartsAt entry then annot else some schema
    if count = 0 then some ([123, 125], r1)
    else
      match bej_decode_stream_internal annot dv dict_for_children
          entry.child_pointer entry.child_count true count r1 with
      | none => none
      | some (text, r2) => some ([123] ++ text ++ [125], r2)

/-- The element loop of `decode_array`. The source checks `unpack_sfl` but
discards `decode_value`'s status; on element failure the model emits
nothing for the element and resumes after its SFL, matching that the loop
keeps going. -/
def decodeArrayItems
    (dv : bej_dict_entry → Nat → List Nat → Option (List Nat × List Nat))
    (element_entry : bej_dict_entry) : Nat → List Nat → Option (List Nat × List Nat)
  | 0, input => some ([], input)
  | i + 1, input =>
    match unpack_sfl input with
    | none => none
    | some (_eseq, _efmt, elen, r1) =>
      let step := match dv element_entry elen r1 with
        | some (t, r2) => (t, r2)
        | none => (([] : List Nat), r1)
      match decodeArrayItems dv element_entry i step.2 with
      | none => none
      | some (tail, r3) =>
        some (step.1 ++ (if i = 0 then [] else [44]) ++ tail, r3)

/-- Source: `decode_array`. Byte 91 is `[`, 93 is `]`. An array entry with
no element archetype prints `[]` and succeeds. -/
def decode_array (schema : bej_dictionary) (annot : Option bej_dictionary)
    (dv : bej_dict_entry → Nat → List Nat → Option (List Nat × List Nat))
    (entry : bej_dict_entry) (input : List Nat) : Option (List Nat × List Nat) :=
  match unpack_nnint input with
  | none => none
  | some (count, r1) =>
    let dict_for_children : Option bej_dictionary :=
      if nameStartsAt entry then annot else some schema
    match bej_dict_stream_next (bej_dict_stream_init_subset dict_for_children
        entry.child_pointer entry.child_count) with
    | none => some ([91, 93], r1)
    | some (element_entry, _) =>
      match decodeArrayItems dv element_entry count r1 with
      | none => none
      | some (items, r2) => some ([91] ++ items ++ [93], r2)

/-- Source: `decode_value` — dispatch on the dictionary entry's format.
Unknown formats seek past `length` bytes and emit nothing. -/
def decode_value (schema : bej_dictionary) (annot : Option bej_dictionary) :
    Nat → bej_dict_entry → Nat → List Nat → Option (List Nat × List Nat)
  | 0, _, _, _ => none
  | fuel + 1, entry, length, input =>
    match entry.format with
    | 0 => decode_set schema annot (decode_value schema annot fuel) entry input
    | 1 => decode_array schema annot (decode_value schema annot fuel) entry input
    | 3 => unpack_integer_text input
    | 5 => unpack_string_text input
    | 7 => unpack_boolean_text input
    | 4 =>
      let dict_to_use := if nameStartsAt entry then annot else some schema
      unpack_enum_text dict_to_use entry input
    | 2 => some ([110, 117, 108, 108], input)
    | _ => some ([], input.drop length)

/-- Source: `bej_decode_stream` — requires both dictionaries, skips the
7-byte header without validation, reads the outer SFL (which must be a
SET), forces the root entry's format to SET and decodes the body. The
return value is the text written to the output stream. -/
def bej_decode_stream (fuel : Nat) (input : List Nat) (schema : bej_dictionary)
    (annot : Option bej_dictionary) : Option (List Nat) :=
  match annot with
  | none => none
  | some _ =>
    match bej_dict_stream_next (bej_dict_stream_init schema) with
    | none => none
    | some (root_entry, _) =>
      match unpack_sfl (input.drop 7) with
      | none => none
      | some (_seq, format, length, r1) =>
        if format ≠ 0 then none
        else
          match decode_value schema annot fuel { root_entry with format := 0 }
              length r1 with
          | none => none
          | some (text, _) => some text

/-- The characters `isspace` accepts. -/
def isSpaceB (c : Nat) : Bool := c = 32 ∨ (9 ≤ c ∧ c ≤ 13)

/-- Source: `skip_whitespace` (line/column tracking dropped). -/
def skip_whitespace (s : List Nat) : List Nat := s.dropWhile isSpaceB

def isDigitB (c : Nat) : Bool := 48 ≤ c ∧ c ≤ 57

/-- Source: the first loop of `parse_string` — find the closing quote,
walking escapes: a `\\u` consumes four extra characters. A truncated
string (terminator reached first) fails the `*cur == '"'` check. -/
def parseStringScan : Nat → List Nat → Bool
  | 0, _ => false
  | f + 1, s =>
    match s with
    | [] => false
    | c :: rest =>
      if c = 34 then true
      else if c = 92 then
        match rest with
        | [] => false
        | e :: r2 => if e = 117 then parseStringScan f (r2.drop 4)
          else parseStringScan f r2
      else parseStringScan f rest

/-- Source: the second loop of `parse_string` — build the unescaped
bytes. The `\\u` case emits the `?` placeholder (byte 63), advances four
characters and `continue`s, so the fourth hex character is re-examined as
an ordinary character by the next iteration, exactly as in the source.
An invalid escape is a parse error. -/
def parseStringBuild : Nat → List Nat → Option (List Nat × List Nat)
  | 0, _ => none
  | f + 1, s =>
    match s with
    | [] => none
    | c :: rest =>
      if c = 34 then some ([], rest)
      else if c = 92 then
        match rest with
        | [] => none
        | e :: r2 =>
          if e = 34 then (parseStringBuild f r2).map (fun p => (34 :: p.1, p.2))
          else if e = 92 then (parseStringBuild f r2).map (fun p => (92 :: p.1, p.2))
          else if e = 47 then (parseStringBuild f r2).map (fun p => (47 :: p.1, p.2))
          else if e = 98 then (parseStringBuild f r2).map (fun p => (8 :: p.1, p.2))
          else if e = 102 then (parseStringBuild f r2).map (fun p => (12 :: p.1, p.2))
          else if e = 110 then (parseStringBuild f r2).map (fun p => (10 :: p.1, p.2))
          else if e = 114 then (parseStringBuild f r2).map (fun p => (13 :: p.1, p.2))
          else if e = 116 then (parseStringBuild f r2).map (fun p => (9 :: p.1, p.2))
          else if e = 117 then
            (parseStringBuild f (r2.drop 3)).map (fun p => (63 :: p.1, p.2))
          else none
      else (parseStringBuild f rest).map (fun p => (c :: p.1, p.2))

/-- Source: `parse_string` — expects the opening quote, validates
termination with the first pass, builds with the second. -/
def parse_string (s : List Nat) : Option (List Nat × List Nat) :=
  match s with
  | 34 :: rest =>
    if parseStringScan (rest.length + 1) rest then
      parseStringBuild (rest.length + 1) rest
    else none
  | _ => none

/-- Source: `parse_literal` / `match_string` — prefix match of `true`,
`false`, `null`. -/
def parse_literal (s : List Nat) : Option (json_value × List Nat) :=
  if s.take 4 = [116, 114, 117, 101] then some (.bool true, s.drop 4)
  else if s.take 5 = [102, 97, 108, 115, 101] then some (.bool false, s.drop 5)
  else if s.take 4 = [110, 117, 108, 108] then some (.null, s.drop 4)
  else none

/-- Decimal value of a digit run. -/
def digitsVal (ds : List Nat) : Nat :=
  List.foldl (fun acc d => acc * 10 + (d - 48)) 0 ds

/-- Source: `parse_number`. The source converts the accepted text with
`strtod` into a `double`; under the integer-valued number model a literal
with a fractional or exponent part denotes a non-integral double and
falls outside the model, which rejects it (the decoder only ever prints
plain integers, so no claim exercises that branch). -/
def parse_number (s : List Nat) : Option (Int × List Nat) :=
  let (neg, s1) : Bool × List Nat :=
    match s with
    | 45 :: r => (true, r)
    | _ => (false, s)
  match s1 with
  | [] => none
  | c :: r =>
    if c = 48 then
      let s2 := r
      match s2 with
      | 46 :: _ => none
      | 101 :: _ => none
      | 69 :: _ => none
      | _ => some (if neg then 0 else 0, s2)
    else if isDigitB c then
      let ds := s1.takeWhile isDigitB
      let s2 := s1.dropWhile isDigitB
      match s2 with
      | 46 :: _ => none
      | 101 :: _ => none
      | 69 :: _ => none
      | _ => some (if neg then -(digitsVal ds : Int) else (digitsVal ds : Int), s2)
    else none

/-- The key/value loop of `parse_object`. `pv` parses one value. Bytes:
34 `"`, 58 `:`, 125 `}`, 44 `,`. -/
def parseObjectLoop (pv : List Nat → Option (json_value × List Nat)) :
    Nat → List Nat → Option (List (List Nat × json_value) × List Nat)
  | 0, _ => none
  | f + 1, s =>
    match skip_whitespace s with
    | 34 :: rest =>
      match parse_string (34 :: rest) with
      | none => none
      | some (key, r1) =>
        match skip_whitespace r1 with
        | 58 :: r3 =>
          match pv r3 with
          | none => none
          | some (v, r4) =>
            match skip_whitespace r4 with
            | 125 :: r6 => some ([(key, v)], r6)
            | 44 :: r6 =>
              match parseObjectLoop pv f r6 with
              | none => none
              | some (entries, r7) => some ((key, v) :: entries, r7)
            | _ => none
        | _ => none
    | _ => none

/-- Source: `parse_object` (empty-object fast path, then the pair loop). -/
def parse_object (pv : List Nat → Option (json_value × List Nat))
    (s : List Nat) : Option (json_value × List Nat) :=
  match s with
  | 123 :: r =>
    match skip_whitespace r with
    | 125 :: r2 => some (.object [], r2)
    | r1 =>
      match parseObjectLoop pv (r1.length + 1) r1 with
      | none => none
      | some (entries, rest) => some (.object entries, rest)
  | _ => none

/-- The element loop of `parse_array`. Bytes: 93 `]`, 44 `,`. -/
def parseArrayLoop (pv : List Nat → Option (json_value × List Nat)) :
    Nat → List Nat → Option (List json_value × List Nat)
  | 0, _ => none
  | f + 1, s =>
    match pv s with
    | none => none
    | some (v, r1) =>
      match skip_whitespace r1 with
      | 93 :: r3 => some ([v], r3)
      | 44 :: r3 =>
        match parseArrayLoop pv f r3 with
        | none => none
        | some (vs, r4) => some (v :: vs, r4)
      | _ => none

/-- Source: `parse_array`. Byte 91 is `[`. -/
def parse_array (pv : List Nat → Option (json_value × List Nat))
    (s : List Nat) : Option (json_value × List Nat) :=
  match s with
  | 91 :: r =>
    match skip_whitespace r with
    | 93 :: r2 => some (.array [], r2)
    | r1 =>
      match parseArrayLoop pv (r1.length + 1) r1 with
      | none => none
      | some (vs, rest) => some (.array vs, rest)
  | _ => none

/-- Source: `parse_value` — dispatch on the first non-space character. -/
def parse_value : Nat → List Nat → Option (json_value × List Nat)
  | 0, _ => none
  | fuel + 1, s =>
    match skip_whitespace s with
    | [] => none
    | c :: rest =>
      if c = 123 then parse_object (parse_value fuel) (c :: rest)
      else if c = 91 then parse_array (parse_value fuel) (c :: rest)
      else if c = 34 then
        (parse_string (c :: rest)).map (fun p => (.string p.1, p.2))
      else if c = 116 ∨ c = 102 ∨ c = 110 then parse_literal (c :: rest)
      else if c = 45 ∨ isDigitB c then
        (parse_number (c :: rest)).map (fun p => (.number p.1, p.2))
      else none

/-- Source: `json_parse` — parse one value, then require only whitespace
before the terminator. -/
def json_parse (input : List Nat) : Option json_value :=
  let t := input.takeWhile (fun b => b % 256 ≠ 0)
  match parse_value (t.length + 1) t with
  | none => none
  | some (v, rest) =>
    if skip_whitespace rest = [] then some v else none

/-- Source: `bej_decode_buffer` — decode to text, then parse the text
(only when non-empty) back into a JSON tree. -/
def bej_decode_buffer (fuel : Nat) (data : List Nat) (schema : bej_dictionary)
    (annot : Option bej_dictionary) : Option json_value :=
  match bej_decode_stream fuel data schema annot with
  | none => none
  | some text => if 0 < text.length then json_parse text else none

/-- A schema dictionary: root SET named `T` (children at offset 22, count
1) and one STRING property named `S` with sequence 0. -/
def dictS : bej_dictionary := ⟨[0, 0, 2, 0, 36, 0, 0, 0, 0, 0, 0, 0,
  0x00, 0, 0, 22, 0, 1, 0, 2, 32, 0,
  0x50, 0, 0, 0, 0, 0, 0, 2, 34, 0,
  84, 0, 83, 0]⟩

/-- A minimal annotation dictionary: valid 12-byte header, zero entries. -/
def annotZ : bej_dictionary := ⟨[0, 0, 0, 0, 12, 0, 0, 0, 0, 0, 0, 0]⟩

/-- The JSON object `{"S": "a\"b"}` — a string value containing a
double-quote byte (34). -/
def exJ : json_value := .object [([83], .string [97, 34, 98])]

/-- An annotation dictionary laid out per the documented format: root SET
at offset 12 (children at 22, count 1, no name) and an INTEGER annotation
entry named `@c` with sequence 5 at offset 22. -/
def dictA : bej_dictionary := ⟨[0, 0, 2, 0, 35, 0, 0, 0, 0, 0, 0, 0,
  0x00, 0, 0, 22, 0, 1, 0, 0, 255, 255,
  0x30, 5, 0, 0, 0, 0, 0, 3, 32, 0,
  64, 99, 0]⟩

/-- A dictionary holding one enum child entry at offset 12: sequence 2,
name `Enabled`. -/
def dictE : bej_dictionary := ⟨[0, 0, 1, 0, 30, 0, 0, 0, 0, 0, 0, 0,
  0x40, 2, 0, 0, 0, 0, 0, 8, 22, 0,
  69, 110, 97, 98, 108, 101, 100, 0]⟩

/-- The ENUM property entry `State` whose children live at offset 12 of
`dictE`. -/
def stateEntry : bej_dict_entry := ⟨4, 0, 1, 12, 1, some [83, 116, 97, 116, 101]⟩

/-- The bytes of `Enabled`. -/
def enabledName : List Nat := [69, 110, 97, 98, 108, 101, 100]

/-- The child entry of `dictE` as the cursor decodes it. -/
def enabledEntry : bej_dict_entry := ⟨4, 0, 2, 0, 0, some enabledName⟩

/-- A 13-byte annotation buffer whose bytes at offset 0 — where the
code's annotation lookup scans — decode as an INTEGER entry named `@k`
with sequence 7. -/
def dictAW : bej_dictionary := ⟨[0x30, 7, 0, 0, 0, 0, 0, 3, 10, 0, 64, 107, 0]⟩

/-- The resolved `@k` entry of `dictAW`. -/
def entryAW : bej_dict_entry := ⟨3, 0, 7, 0, 0, some [64, 107]⟩

/-- A parent entry with no children, for lookups that never touch it. -/
def parentW : bej_dict_entry := ⟨0, 0, 0, 0, 0, none⟩

/-- An empty schema buffer, for lookups that never touch it. -/
def schemaW : bej_dictionary := ⟨[]⟩

/-! ## Theorems -/

theorem leBytesAux_zero (f : Nat) : leBytesAux 0 f = [] := by
  cases f <;> simp [leBytesAux]

theorem leBytesAux_length_le : ∀ f v, (leBytesAux v f).length ≤ f := by
  intro f
  induction f with
  | zero => intro v; simp [leBytesAux]
  | succ f ih =>
    intro v
    by_cases h : v = 0
    · simp [leBytesAux, h]
    · simp only [leBytesAux, if_neg h, List.length_cons]
      exact Nat.succ_le_succ (ih _)

theorem leBytesAux_lt_imp_length (f : Nat) :
    ∀ v, v < 256 ^ f → v ≠ 0 → 256 ^ ((leBytesAux v f).length - 1) ≤ v ∧
      v < 256 ^ (leBytesAux v f).length := by
  induction f with
  | zero => intro v hv hne; omega
  | succ f ih =>
    intro v hv hne
    simp only [leBytesAux, if_neg hne, List.length_cons]
    by_cases hq : v / 256 = 0
    · simp only [hq, leBytesAux_zero, List.length_nil]
      have : v < 256 := by omega
      constructor
      · simpa using Nat.one_le_iff_ne_zero.mpr hne
      · simpa using this
    · have hqlt : v / 256 < 256 ^ f := by
        have : v < 256 * 256 ^ f := by
          calc v < 256 ^ (f + 1) := hv
          _ = 256 * 256 ^ f := by ring
        omega
      obtain ⟨h1, h2⟩ := ih (v / 256) hqlt hq
      set L := (leBytesAux (v / 256) f).length with hL
      have hL1 : 1 ≤ L := by
        rcases Nat.eq_zero_or_pos L with h | h
        · exfalso
          rw [h] at h2
          simp at h2
          omega
        · exact h
      constructor
      · have hmul : 256 ^ (L - 1) * 256 ≤ v / 256 * 256 := Nat.mul_le_mul_right 256 h1
        have hsub : L + 1 - 1 = (L - 1) + 1 := by omega
        rw [hsub, pow_succ]
        omega
      · rw [pow_succ]
        omega

theorem leVal_leBytesAux (f : Nat) : ∀ v, v < 256 ^ f → leVal (leBytesAux v f) = v := by
  induction f with
  | zero => intro v hv; interval_cases v; simp [leBytesAux, leVal]
  | succ f ih =>
    intro v hv
    by_cases h : v = 0
    · simp [h, leBytesAux_zero, leVal]
    · simp only [leBytesAux, if_neg h, leVal]
      have hqlt : v / 256 < 256 ^ f := by
        have : v < 256 * 256 ^ f := by
          calc v < 256 ^ (f + 1) := hv
          _ = 256 * 256 ^ f := by ring
        omega
      rw [ih _ hqlt]
      have := Nat.div_add_mod v 256
      omega

theorem leBytesAux_all_lt (f : Nat) : ∀ v, ∀ b ∈ leBytesAux v f, b < 256 := by
  induction f with
  | zero => intro v b hb; simp [leBytesAux] at hb
  | succ f ih =>
    intro v b hb
    by_cases h : v = 0
    · simp [leBytesAux, h] at hb
    · simp only [leBytesAux, if_neg h, List.mem_cons] at hb
      rcases hb with hb | hb
      · subst hb; exact Nat.mod_lt _ (by norm_num)
      · exact ih _ _ hb

theorem leBytesAux_eq_fixed (f : Nat) :
    ∀ v, v < 256 ^ f → leBytesAux v f = leBytesFixed v (leBytesAux v f).length := by
  induction f with
  | zero => intro v hv; interval_cases v; simp [leBytesAux, leBytesFixed]
  | succ f ih =>
    intro v hv
    by_cases h : v = 0
    · simp [h, leBytesAux_zero, leBytesFixed]
    · simp only [leBytesAux, if_neg h, List.length_cons]
      have hqlt : v / 256 < 256 ^ f := by
        have : v < 256 * 256 ^ f := by
          calc v < 256 ^ (f + 1) := hv
          _ = 256 * 256 ^ f := by ring
        omega
      have ihq := ih _ hqlt
      simp only [leBytesFixed, List.range_succ_eq_map, List.map_cons, List.map_map]
      congr 1
      · simp
      · rw [ihq]
        simp only [leBytesFixed, List.length_map, List.length_range]
        apply List.map_congr_left
        intro j _
        simp only [Function.comp_apply]
        rw [Nat.div_div_eq_div_mul, ← pow_succ']

/-- NNINT round-trip and shape: helper for claim C2. -/
theorem unpack_pack_nnint (value : Nat) (rest : List Nat) :
    unpack_nnint (pack_nnint value ++ rest) = some (value % 2 ^ 64, rest) := by
  unfold pack_nnint
  set v := value % 2 ^ 64 with hv
  have hvlt : v < 2 ^ 64 := Nat.mod_lt _ (by norm_num)
  by_cases h : v = 0
  · simp [h, unpack_nnint, leVal]
  · simp only [if_neg h]
    have hlen : (leBytesAux v 8).length ≤ 8 := leBytesAux_length_le 8 v
    have h256 : v < 256 ^ 8 := by
      have : (256 : Nat) ^ 8 = 2 ^ 64 := by norm_num
      omega
    simp only [unpack_nnint, List.cons_append]
    have hnot8 : ¬ (leBytesAux v 8).length > 8 := by omega
    have hlen2 : ¬ ((leBytesAux v 8 ++ rest).length < (leBytesAux v 8).length) := by
      simp [List.length_append]
    rw [if_neg hnot8, if_neg hlen2, List.take_left, List.drop_left,
      leVal_leBytesAux 8 v h256]

theorem pack_nnint_shape (v : Nat) (hv : v < 2 ^ 64) (hne : v ≠ 0) :
    ∃ n, pack_nnint v = n :: leBytesFixed v n ∧ 1 ≤ n ∧ n ≤ 8 ∧
      v < 2 ^ (8 * n) ∧ ∀ m, 1 ≤ m → v < 2 ^ (8 * m) → n ≤ m := by
  have hmod : v % 2 ^ 64 = v := Nat.mod_eq_of_lt hv
  have h256 : v < 256 ^ 8 := by
    have : (256 : Nat) ^ 8 = 2 ^ 64 := by norm_num
    omega
  obtain ⟨hlo, hhi⟩ := leBytesAux_lt_imp_length 8 v h256 hne
  set n := (leBytesAux v 8).length with hn
  have hfix := leBytesAux_eq_fixed 8 v h256
  have hn8 : n ≤ 8 := leBytesAux_length_le 8 v
  have hn1 : 1 ≤ n := by
    rcases Nat.eq_zero_or_pos n with h0 | h
    · exfalso; rw [h0] at hhi; simp at hhi; omega
    · exact h
  refine ⟨n, ?_, hn1, hn8, ?_, ?_⟩
  · unfold pack_nnint
    rw [hmod, if_neg hne, ← hfix]
  · have : (256 : Nat) ^ n = 2 ^ (8 * n) := by
      rw [show (256 : Nat) = 2 ^ 8 by norm_num, ← pow_mul]
    omega
  · intro m hm hvm
    have h2 : (256 : Nat) ^ m = 2 ^ (8 * m) := by
      rw [show (256 : Nat) = 2 ^ 8 by norm_num, ← pow_mul]
    have hlt : (256 : Nat) ^ (n - 1) < 256 ^ m := by omega
    have := (Nat.pow_lt_pow_iff_right (show 1 < 256 by norm_num)).mp hlt
    omega

/-- Claim C2: for every `v` in `[0, 2^64)`, `unpack_nnint` decodes the bytes
that `pack_nnint` writes for `v` back to `v` (leaving the tail untouched),
and `pack_nnint` emits the minimal encoding: the two bytes `01 00` when
`v = 0`, otherwise a length byte `n` that is the least `n ∈ [1..8]` with
`v < 2^(8n)`, followed by the `n` little-endian bytes of `v`. -/
theorem nnint_roundtrip_minimal (v : Nat) (hv : v < 2 ^ 64) (rest : List Nat) :
    unpack_nnint (pack_nnint v ++ rest) = some (v, rest)
    ∧ (v = 0 → pack_nnint v = [1, 0])
    ∧ (v ≠ 0 → ∃ n, pack_nnint v = n :: leBytesFixed v n ∧ 1 ≤ n ∧ n ≤ 8 ∧
        v < 2 ^ (8 * n) ∧ ∀ m, 1 ≤ m → v < 2 ^ (8 * m) → n ≤ m) := by
  refine ⟨?_, ?_, fun hne => pack_nnint_shape v hv hne⟩
  · rw [unpack_pack_nnint, Nat.mod_eq_of_lt hv]
  · intro h0
    simp [pack_nnint, h0]

/-- Witness for C2 at `v = 300`. -/
theorem nnint_roundtrip_minimal_witness :
    (300 : Nat) < 2 ^ 64 ∧
    (unpack_nnint (pack_nnint 300 ++ [9]) = some (300, [9])
    ∧ ((300 : Nat) = 0 → pack_nnint 300 = [1, 0])
    ∧ ((300 : Nat) ≠ 0 → ∃ n, pack_nnint 300 = n :: leBytesFixed 300 n ∧ 1 ≤ n ∧ n ≤ 8 ∧
        300 < 2 ^ (8 * n) ∧ ∀ m, 1 ≤ m → 300 < 2 ^ (8 * m) → n ≤ m)) :=
  ⟨by norm_num, nnint_roundtrip_minimal 300 (by norm_num) [9]⟩

/-- Counterexample for claim C5: the claim says `unpack_nnint` fails on
every input whose length byte is 0, but the source accepts it (the guard
`num_bytes > 0 && fread(...)` skips the read) and yields the value 0. -/
theorem unpack_nnint_zero_len_accepted :
    unpack_nnint [0, 7] = some (0, [7]) ∧ unpack_nnint [0, 7] ≠ none := by
  constructor
  · rfl
  · simp [unpack_nnint]

/-- Claim C5 as amended: `unpack_nnint` fails on every input whose length
byte exceeds 8, but an input with length byte 0 is accepted and yields the
value 0 without consuming further bytes. -/
theorem unpack_nnint_len_checks :
    (∀ L rest, L > 8 → unpack_nnint (L :: rest) = none)
    ∧ (∀ rest, unpack_nnint (0 :: rest) = none → False)
    ∧ (∀ rest, unpack_nnint (0 :: rest) = some (0, rest)) := by
  refine ⟨fun L rest hL => ?_, fun rest h => ?_, fun rest => ?_⟩
  · simp [unpack_nnint, hL]
  · simp [unpack_nnint, leVal] at h
  · simp [unpack_nnint, leVal]

/-- Witness for the amended C5. -/
theorem unpack_nnint_len_checks_witness :
    unpack_nnint (9 :: [1, 2, 3]) = none ∧ unpack_nnint (0 :: [5]) = some (0, [5]) :=
  ⟨unpack_nnint_len_checks.1 9 [1, 2, 3] (by norm_num), unpack_nnint_len_checks.2.2 [5]⟩

theorem sfits_mono (i : Int) (m m' : Nat) (h : m ≤ m') (hf : sfits i m) : sfits i m' := by
  obtain ⟨h1, h2⟩ := hf
  have hp : (2 : Int) ^ (8 * m - 1) ≤ 2 ^ (8 * m' - 1) :=
    pow_le_pow_right₀ (by norm_num) (by omega)
  exact ⟨by omega, by omega⟩

/-- The shrink loop computes the least width in `[1..n]` satisfying any
monotone predicate `fits` that characterises its stopping condition. -/
theorem intShrink_min (i : Int) (u : Nat) (fits : Nat → Prop)
    (hmono : ∀ m m', m ≤ m' → fits m → fits m')
    (hcond : ∀ num, num + 2 ≤ 8 → fits (num + 2) →
      (((0 ≤ i ∧ u / 256 ^ (num + 1) % 256 = 0 ∧ u / 256 ^ num % 256 < 128)
        ∨ (i < 0 ∧ u / 256 ^ (num + 1) % 256 = 255 ∧ 128 ≤ u / 256 ^ num % 256))
        ↔ fits (num + 1))) :
    ∀ n, 1 ≤ n → n ≤ 8 → fits n →
      1 ≤ intShrink i u n ∧ intShrink i u n ≤ n ∧ fits (intShrink i u n) ∧
      ∀ m, 1 ≤ m → fits m → intShrink i u n ≤ m := by
  intro n
  induction n using Nat.strong_induction_on with
  | _ n IH =>
    match n with
    | 0 => intro h1; omega
    | 1 =>
      intro _ _ hf
      refine ⟨le_refl 1, le_refl 1, by simpa [intShrink] using hf, ?_⟩
      intro m hm _
      simpa [intShrink] using hm
    | num + 2 =>
      intro h1 h8 hf
      by_cases hc :
        (0 ≤ i ∧ u / 256 ^ (num + 1) % 256 = 0 ∧ u / 256 ^ num % 256 < 128)
        ∨ (i < 0 ∧ u / 256 ^ (num + 1) % 256 = 255 ∧ 128 ≤ u / 256 ^ num % 256)
      · have hfs : fits (num + 1) := (hcond num h8 hf).mp hc
        have hrec := IH (num + 1) (by omega) (by omega) (by omega) hfs
        simp only [intShrink, if_pos hc]
        exact ⟨hrec.1, by omega, hrec.2.2.1, hrec.2.2.2⟩
      · simp only [intShrink, if_neg hc]
        refine ⟨by omega, le_refl _, hf, ?_⟩
        intro m hm hfm
        by_contra hlt
        push_neg at hlt
        have hm1 : m ≤ num + 1 := by omega
        have : fits (num + 1) := hmono m (num + 1) hm1 hfm
        exact hc ((hcond num h8 hf).mpr this)

theorem pow256_eq (n : Nat) : (256 : Nat) ^ n = 2 ^ (8 * n) := by
  rw [show (256 : Nat) = 2 ^ 8 by norm_num, ← pow_mul]

/-- The shrink condition for a non-negative value: the top byte is zero and
the next byte's high bit is clear exactly when the value fits one byte
fewer. -/
theorem cond_iff_nonneg (u num : Nat) (hu : u < 2 ^ (8 * num + 15)) :
    (u / 256 ^ (num + 1) % 256 = 0 ∧ u / 256 ^ num % 256 < 128)
      ↔ u < 2 ^ (8 * num + 7) := by
  have hP : 0 < (256 : Nat) ^ num := pow_pos (by norm_num) _
  have hdd : u / 256 ^ (num + 1) = u / 256 ^ num / 256 := by
    rw [pow_succ, Nat.div_div_eq_div_mul]
  have ha15 : u / 256 ^ num < 2 ^ 15 := by
    rw [Nat.div_lt_iff_lt_mul hP]
    have hexp : (2 : Nat) ^ (8 * num + 15) = 2 ^ 15 * 256 ^ num := by
      rw [pow256_eq, ← pow_add]; ring_nf
    omega
  have hiff : u / 256 ^ num < 128 ↔ u < 2 ^ (8 * num + 7) := by
    rw [Nat.div_lt_iff_lt_mul hP]
    have hexp : (2 : Nat) ^ (8 * num + 7) = 128 * 256 ^ num := by
      rw [pow256_eq, show (128 : Nat) = 2 ^ 7 by norm_num, ← pow_add]; ring_nf
    omega
  rw [hdd, ← hiff]
  generalize u / 256 ^ num = a at ha15 ⊢
  omega

/-- The shrink condition for a negative value: the top byte is `0xFF` and
the next byte's high bit is set exactly when the value fits one byte
fewer. -/
theorem cond_iff_neg (u num : Nat) (hnum : num ≤ 6) (hu_hi : u < 2 ^ 64)
    (hu_lo : 2 ^ 64 - 2 ^ (8 * num + 15) ≤ u) :
    (u / 256 ^ (num + 1) % 256 = 255 ∧ 128 ≤ u / 256 ^ num % 256)
      ↔ 2 ^ 64 - 2 ^ (8 * num + 7) ≤ u := by
  have hP : 0 < (256 : Nat) ^ num := pow_pos (by norm_num) _
  have hdd : u / 256 ^ (num + 1) = u / 256 ^ num / 256 := by
    rw [pow_succ, Nat.div_div_eq_div_mul]
  have hK1 : 1 ≤ (2 : Nat) ^ (48 - 8 * num) := Nat.one_le_two_pow
  have hc : (2 : Nat) ^ 64 = 65536 * (2 : Nat) ^ (48 - 8 * num) * 256 ^ num := by
    rw [pow256_eq, show (65536 : Nat) = 2 ^ 16 by norm_num, ← pow_add, ← pow_add]
    congr 1
    omega
  have hexp15 : (2 : Nat) ^ (8 * num + 15) = 2 ^ 15 * 256 ^ num := by
    rw [pow256_eq, ← pow_add]; ring_nf
  have hexp7 : (2 : Nat) ^ (8 * num + 7) = 128 * 256 ^ num := by
    rw [pow256_eq, show (128 : Nat) = 2 ^ 7 by norm_num, ← pow_add]; ring_nf
  have haub : u / 256 ^ num < 65536 * (2 : Nat) ^ (48 - 8 * num) := by
    rw [Nat.div_lt_iff_lt_mul hP]
    omega
  have halb : 65536 * (2 : Nat) ^ (48 - 8 * num) - 2 ^ 15 ≤ u / 256 ^ num := by
    rw [Nat.le_div_iff_mul_le hP]
    have hsub : (65536 * (2 : Nat) ^ (48 - 8 * num) - 2 ^ 15) * 256 ^ num
        = 65536 * (2 : Nat) ^ (48 - 8 * num) * 256 ^ num - 2 ^ 15 * 256 ^ num :=
      Nat.sub_mul _ _ _
    omega
  have hub : 2 ^ 64 - 2 ^ (8 * num + 7) ≤ u
      ↔ 65536 * (2 : Nat) ^ (48 - 8 * num) - 128 ≤ u / 256 ^ num := by
    rw [Nat.le_div_iff_mul_le hP]
    have hsub : (65536 * (2 : Nat) ^ (48 - 8 * num) - 128) * 256 ^ num
        = 65536 * (2 : Nat) ^ (48 - 8 * num) * 256 ^ num - 128 * 256 ^ num :=
      Nat.sub_mul _ _ _
    omega
  rw [hdd, hub]
  generalize u / 256 ^ num = a at haub halb ⊢
  generalize (2 : Nat) ^ (48 - 8 * num) = K at hK1 haub halb ⊢
  omega

theorem pack_nnint_small (n : Nat) (h1 : 1 ≤ n) (h2 : n < 256) :
    pack_nnint n = [1, n] := by
  unfold pack_nnint
  have hmod : n % 2 ^ 64 = n := Nat.mod_eq_of_lt (by omega)
  rw [hmod, if_neg (by omega)]
  have hb : leBytesAux n 8 = [n] := by
    show (if n = 0 then [] else n % 256 :: leBytesAux (n / 256) 7) = [n]
    rw [if_neg (by omega), Nat.mod_eq_of_lt h2, Nat.div_eq_of_lt h2, leBytesAux_zero]
  rw [hb]
  rfl

theorem leBytesFixed_length (u n : Nat) : (leBytesFixed u n).length = n := by
  simp [leBytesFixed]

theorem leBytesFixed_succ (u n : Nat) :
    leBytesFixed u (n + 1) = u % 256 :: leBytesFixed (u / 256) n := by
  simp only [leBytesFixed, List.range_succ_eq_map, List.map_cons, List.map_map]
  congr 1
  · simp
  · apply List.map_congr_left
    intro j _
    simp only [Function.comp_apply]
    rw [Nat.div_div_eq_div_mul, ← pow_succ']

theorem mod_mul_decompose (u n : Nat) :
    u % (256 * 256 ^ n) = 256 * (u / 256 % 256 ^ n) + u % 256 := by
  have hM : 0 < 256 ^ n := pow_pos (by norm_num) n
  have h1 : 256 * (u / 256) % (256 * 256 ^ n) = 256 * (u / 256 % 256 ^ n) :=
    Nat.mul_mod_mul_left 256 (u / 256) (256 ^ n)
  have h3 : u / 256 % 256 ^ n < 256 ^ n := Nat.mod_lt _ hM
  have h4 : u % 256 < 256 := Nat.mod_lt u (by norm_num)
  calc u % (256 * 256 ^ n)
      = (256 * (u / 256) + u % 256) % (256 * 256 ^ n) := by rw [Nat.div_add_mod]
    _ = (256 * (u / 256) % (256 * 256 ^ n) + u % 256 % (256 * 256 ^ n))
        % (256 * 256 ^ n) := Nat.add_mod _ _ _
    _ = (256 * (u / 256 % 256 ^ n) + u % 256) % (256 * 256 ^ n) := by
        rw [h1, Nat.mod_eq_of_lt (show u % 256 < 256 * 256 ^ n by nlinarith)]
    _ = 256 * (u / 256 % 256 ^ n) + u % 256 := Nat.mod_eq_of_lt (by nlinarith)

theorem leVal_leBytesFixed (n : Nat) : ∀ u, leVal (leBytesFixed u n) = u % 256 ^ n := by
  induction n with
  | zero => intro u; simp [leBytesFixed, leVal, Nat.mod_one]
  | succ n ih =>
    intro u
    rw [leBytesFixed_succ, leVal, ih, pow_succ', mod_mul_decompose]
    omega

theorem leBytesFixed_getD (u n j : Nat) (h : j < n) :
    (leBytesFixed u n).getD j 0 = u / 256 ^ j % 256 := by
  rw [List.getD_eq_getElem?_getD]
  simp [leBytesFixed, List.getElem?_map, List.getElem?_range, h]

theorem toU64_nonneg (i : Int) (h0 : 0 ≤ i) (h : i < 2 ^ 64) : (toU64 i : Int) = i := by
  unfold toU64
  rw [Int.emod_eq_of_lt h0 (by exact_mod_cast h), Int.toNat_of_nonneg h0]

theorem toU64_neg (i : Int) (hlo : -(2 ^ 64 : Int) ≤ i) (h : i < 0) :
    (toU64 i : Int) = i + 2 ^ 64 := by
  unfold toU64
  have h1 : i % (2 ^ 64 : Int) = i + 2 ^ 64 := by
    have h2 : (i + 2 ^ 64 * 1) % (2 ^ 64 : Int) = i % 2 ^ 64 :=
      Int.add_mul_emod_self_left i (2 ^ 64) 1
    have h3 : (i + 2 ^ 64) % (2 ^ 64 : Int) = i + 2 ^ 64 :=
      Int.emod_eq_of_lt (by omega) (by omega)
    omega
  rw [h1, Int.toNat_of_nonneg (by omega)]

theorem toU64_lt (i : Int) : toU64 i < 2 ^ 64 := by
  unfold toU64
  have h0 : (0 : Int) < 2 ^ 64 := by norm_num
  have := Int.emod_lt_of_pos i h0
  have h2 : (0 : Int) ≤ i % 2 ^ 64 := Int.emod_nonneg i (by norm_num)
  omega

/-- Evaluation of `unpack_integer_value` on a well-formed packed payload:
NNINT width prefix `[1, n]`, then the `n` little-endian bytes of `u`. -/
theorem unpack_integer_eval (n : Nat) (h1 : 1 ≤ n) (h8 : n ≤ 8) (u : Nat)
    (rest : List Nat) :
    unpack_integer_value (([1, n] ++ leBytesFixed u n) ++ rest)
      = some (if 128 ≤ u / 256 ^ (n - 1) % 256
          then ((u % 256 ^ n : Nat) : Int) - 2 ^ (8 * n)
          else ((u % 256 ^ n : Nat) : Int), rest) := by
  have hlen : (leBytesFixed u n).length = n := leBytesFixed_length u n
  have hfirst : unpack_nnint (([1, n] ++ leBytesFixed u n) ++ rest)
      = some (n, leBytesFixed u n ++ rest) := by
    show unpack_nnint (1 :: n :: (leBytesFixed u n ++ rest)) = _
    simp only [unpack_nnint]
    rw [if_neg (by omega), if_neg (by simp)]
    simp [leVal, Nat.mod_eq_of_lt (show n < 256 by omega)]
  have htake : (leBytesFixed u n ++ rest).take n = leBytesFixed u n := by
    have h := List.take_left (leBytesFixed u n) rest
    rwa [hlen] at h
  have hdrop : (leBytesFixed u n ++ rest).drop n = rest := by
    have h := List.drop_left (leBytesFixed u n) rest
    rwa [hlen] at h
  simp only [unpack_integer_value, hfirst]
  rw [if_neg (by omega), if_neg (by rw [List.length_append, hlen]; omega)]
  simp only [htake, hdrop]
  rw [leVal_leBytesFixed, leBytesFixed_getD u n (n - 1) (by omega)]
  simp [Nat.mod_mod_of_dvd]

/-- The shrink loop starting at width 8 finds the minimal signed byte
width, for every `int64_t` value. -/
theorem intShrink_spec (i : Int) (hlo : -(2 ^ 63 : Int) ≤ i) (hhi : i < (2 ^ 63 : Int)) :
    1 ≤ intShrink i (toU64 i) 8 ∧ intShrink i (toU64 i) 8 ≤ 8 ∧
    sfits i (intShrink i (toU64 i) 8) ∧
    (∀ m, 1 ≤ m → sfits i m → intShrink i (toU64 i) 8 ≤ m) ∧
    (0 ≤ i → toU64 i < 2 ^ (8 * intShrink i (toU64 i) 8 - 1)) ∧
    (i < 0 → 2 ^ 64 - 2 ^ (8 * intShrink i (toU64 i) 8 - 1) ≤ toU64 i) := by
  rcases le_or_lt 0 i with h0 | hneg
  · -- non-negative value
    have hcast : (toU64 i : Int) = i := toU64_nonneg i h0 (by omega)
    have htrans : ∀ m, 1 ≤ m → (toU64 i < 2 ^ (8 * m - 1) ↔ sfits i m) := by
      intro m hm
      have hpow : ((2 ^ (8 * m - 1) : Nat) : Int) = (2 : Int) ^ (8 * m - 1) := by
        push_cast; rfl
      have hpos : (0 : Int) < 2 ^ (8 * m - 1) := pow_pos (by norm_num) _
      unfold sfits
      omega
    have hmono : ∀ m m', m ≤ m' → toU64 i < 2 ^ (8 * m - 1) → toU64 i < 2 ^ (8 * m' - 1) := by
      intro m m' hmm hf
      have := Nat.pow_le_pow_right (show 1 ≤ 2 by norm_num) (show 8 * m - 1 ≤ 8 * m' - 1 by omega)
      omega
    have hcond : ∀ num, num + 2 ≤ 8 → toU64 i < 2 ^ (8 * (num + 2) - 1) →
        (((0 ≤ i ∧ toU64 i / 256 ^ (num + 1) % 256 = 0 ∧ toU64 i / 256 ^ num % 256 < 128)
          ∨ (i < 0 ∧ toU64 i / 256 ^ (num + 1) % 256 = 255 ∧ 128 ≤ toU64 i / 256 ^ num % 256))
          ↔ toU64 i < 2 ^ (8 * (num + 1) - 1)) := by
      intro num _ hf
      have he2 : (2 : Nat) ^ (8 * (num + 2) - 1) = 2 ^ (8 * num + 15) := by congr 1
      have he1 : (2 : Nat) ^ (8 * (num + 1) - 1) = 2 ^ (8 * num + 7) := by congr 1
      rw [he2] at hf
      rw [he1]
      have hiff := cond_iff_nonneg (toU64 i) num hf
      constructor
      · rintro (⟨_, hA, hB⟩ | ⟨hn, _, _⟩)
        · exact hiff.mp ⟨hA, hB⟩
        · omega
      · intro hfs
        exact Or.inl ⟨h0, hiff.mpr hfs⟩
    have hinit : toU64 i < 2 ^ (8 * 8 - 1) := by
      have : toU64 i < 2 ^ 63 := by omega
      simpa using this
    obtain ⟨ha, hb, hc, hd⟩ :=
      intShrink_min i (toU64 i) (fun m => toU64 i < 2 ^ (8 * m - 1)) hmono hcond 8
        (by norm_num) (le_refl 8) hinit
    refine ⟨ha, hb, (htrans _ ha).mp hc, ?_, fun _ => hc, fun hn => absurd h0 (by omega)⟩
    intro m hm hs
    exact hd m hm ((htrans m hm).mpr hs)
  · -- negative value
    have hcast : (toU64 i : Int) = i + 2 ^ 64 := toU64_neg i (by omega) hneg
    have hu64 : toU64 i < 2 ^ 64 := toU64_lt i
    have htrans : ∀ m, 1 ≤ m → m ≤ 8 →
        (2 ^ 64 - 2 ^ (8 * m - 1) ≤ toU64 i ↔ sfits i m) := by
      intro m hm hm8
      have hpow : ((2 ^ (8 * m - 1) : Nat) : Int) = (2 : Int) ^ (8 * m - 1) := by
        push_cast; rfl
      have hpos : (0 : Int) < 2 ^ (8 * m - 1) := pow_pos (by norm_num) _
      have hle : (2 : Nat) ^ (8 * m - 1) ≤ 2 ^ 64 :=
        Nat.pow_le_pow_right (by norm_num) (by omega)
      unfold sfits
      omega
    have hmono : ∀ m m', m ≤ m' → 2 ^ 64 - 2 ^ (8 * m - 1) ≤ toU64 i →
        2 ^ 64 - 2 ^ (8 * m' - 1) ≤ toU64 i := by
      intro m m' hmm hf
      have := Nat.pow_le_pow_right (show 1 ≤ 2 by norm_num) (show 8 * m - 1 ≤ 8 * m' - 1 by omega)
      omega
    have hcond : ∀ num, num + 2 ≤ 8 → 2 ^ 64 - 2 ^ (8 * (num + 2) - 1) ≤ toU64 i →
        (((0 ≤ i ∧ toU64 i / 256 ^ (num + 1) % 256 = 0 ∧ toU64 i / 256 ^ num % 256 < 128)
          ∨ (i < 0 ∧ toU64 i / 256 ^ (num + 1) % 256 = 255 ∧ 128 ≤ toU64 i / 256 ^ num % 256))
          ↔ 2 ^ 64 - 2 ^ (8 * (num + 1) - 1) ≤ toU64 i) := by
      intro num hn8 hf
      have he2 : (2 : Nat) ^ (8 * (num + 2) - 1) = 2 ^ (8 * num + 15) := by congr 1
      have he1 : (2 : Nat) ^ (8 * (num + 1) - 1) = 2 ^ (8 * num + 7) := by congr 1
      rw [he2] at hf
      rw [he1]
      have hiff := cond_iff_neg (toU64 i) num (by omega) hu64 hf
      constructor
      · rintro (⟨hp, _, _⟩ | ⟨_, hA, hB⟩)
        · omega
        · exact hiff.mp ⟨hA, hB⟩
      · intro hfs
        exact Or.inr ⟨hneg, hiff.mpr hfs⟩
    have hinit : 2 ^ 64 - 2 ^ (8 * 8 - 1) ≤ toU64 i := by
      have h63 : ((2 ^ 63 : Nat) : Int) = (2 : Int) ^ 63 := by norm_cast
      have h64 : ((2 ^ 64 : Nat) : Int) = (2 : Int) ^ 64 := by norm_cast
      show 2 ^ 64 - 2 ^ 63 ≤ toU64 i
      omega
    obtain ⟨ha, hb, hc, hd⟩ :=
      intShrink_min i (toU64 i) (fun m => 2 ^ 64 - 2 ^ (8 * m - 1) ≤ toU64 i) hmono hcond 8
        (by norm_num) (le_refl 8) hinit
    refine ⟨ha, hb, (htrans _ ha hb).mp hc, ?_, fun hp => absurd hp (by omega), fun _ => hc⟩
    intro m hm hs
    by_cases hm8 : m ≤ 8
    · exact hd m hm ((htrans m hm hm8).mpr hs)
    · omega

/-- For a non-negative value at its minimal width, the payload's top byte
has a clear high bit and the assembled value is `u` itself. -/
theorem nonneg_byte_facts (u n : Nat) (h1 : 1 ≤ n) (hfits : u < 2 ^ (8 * n - 1)) :
    u % 256 ^ n = u ∧ u / 256 ^ (n - 1) % 256 < 128 := by
  have hD : 0 < (256 : Nat) ^ (n - 1) := pow_pos (by norm_num) _
  have hkey : 128 * 256 ^ (n - 1) = 2 ^ (8 * n - 1) := by
    rw [pow256_eq, show (128 : Nat) = 2 ^ 7 by norm_num, ← pow_add]
    congr 1
    omega
  have hhalf : (2 : Nat) ^ (8 * n) = 2 * 2 ^ (8 * n - 1) := by
    rw [← pow_succ']
    congr 1
    omega
  constructor
  · apply Nat.mod_eq_of_lt
    rw [pow256_eq]
    omega
  · have hdivlt : u / 256 ^ (n - 1) < 128 := by
      rw [Nat.div_lt_iff_lt_mul hD]
      omega
    have := Nat.mod_le (u / 256 ^ (n - 1)) 256
    omega

/-- For a negative value at its minimal width, the payload's top byte has a
set high bit and the assembled value is the low `8n` bits of the
two's-complement pattern. -/
theorem neg_byte_facts (u n : Nat) (h1 : 1 ≤ n) (h8 : n ≤ 8) (hu64 : u < 2 ^ 64)
    (hfits : 2 ^ 64 - 2 ^ (8 * n - 1) ≤ u) :
    u % 256 ^ n = u - (2 ^ 64 - 2 ^ (8 * n)) ∧ 128 ≤ u / 256 ^ (n - 1) % 256 := by
  have hD : 0 < (256 : Nat) ^ (n - 1) := pow_pos (by norm_num) _
  have hkey : 128 * 256 ^ (n - 1) = 2 ^ (8 * n - 1) := by
    rw [pow256_eq, show (128 : Nat) = 2 ^ 7 by norm_num, ← pow_add]
    congr 1
    omega
  have hhalf : (2 : Nat) ^ (8 * n) = 2 * 2 ^ (8 * n - 1) := by
    rw [← pow_succ']
    congr 1
    omega
  have h8n64 : (2 : Nat) ^ (8 * n) ≤ 2 ^ 64 :=
    Nat.pow_le_pow_right (by norm_num) (by omega)
  have hmulQ : (2 : Nat) ^ (8 * n) * 2 ^ (64 - 8 * n) = 2 ^ 64 := by
    rw [← pow_add]
    congr 1
    omega
  have hQ : (2 : Nat) ^ (8 * n) * (2 ^ (64 - 8 * n) - 1)
      = 2 ^ 64 - 2 ^ (8 * n) := by
    rw [Nat.mul_sub, Nat.mul_one, hmulQ]
  have hsum : u = (u - (2 ^ 64 - 2 ^ (8 * n))) + 2 ^ (8 * n) * (2 ^ (64 - 8 * n) - 1) := by
    rw [hQ]
    omega
  have hTlt : u - (2 ^ 64 - 2 ^ (8 * n)) < 2 ^ (8 * n) := by omega
  have hTge : 2 ^ (8 * n - 1) ≤ u - (2 ^ 64 - 2 ^ (8 * n)) := by omega
  have he1 : 8 * (n - 1) + 8 = 8 * n := by omega
  have hfac : (2 : Nat) ^ (8 * n) = 256 ^ (n - 1) * 256 := by
    calc (2 : Nat) ^ (8 * n) = 2 ^ (8 * (n - 1) + 8) := by rw [he1]
      _ = 2 ^ (8 * (n - 1)) * 2 ^ 8 := pow_add 2 _ _
      _ = 256 ^ (n - 1) * 256 := by rw [pow256_eq]; norm_num
  constructor
  · rw [pow256_eq]
    conv_lhs => rw [hsum]
    rw [Nat.add_mul_mod_self_left]
    exact Nat.mod_eq_of_lt hTlt
  · have hsum2 : u = (u - (2 ^ 64 - 2 ^ (8 * n)))
        + 256 ^ (n - 1) * (256 * (2 ^ (64 - 8 * n) - 1)) := by
      rw [← Nat.mul_assoc, ← hfac]
      exact hsum
    have hbyte : u / 256 ^ (n - 1) % 256
        = (u - (2 ^ 64 - 2 ^ (8 * n))) / 256 ^ (n - 1) % 256 := by
      conv_lhs => rw [hsum2]
      rw [Nat.add_mul_div_left _ _ hD, Nat.add_mul_mod_self_left]
    have hTdiv_lt : (u - (2 ^ 64 - 2 ^ (8 * n))) / 256 ^ (n - 1) < 256 := by
      rw [Nat.div_lt_iff_lt_mul hD]
      calc u - (2 ^ 64 - 2 ^ (8 * n)) < 2 ^ (8 * n) := hTlt
        _ = 256 * 256 ^ (n - 1) := by rw [hfac]; ring
    have hTdiv_ge : 128 ≤ (u - (2 ^ 64 - 2 ^ (8 * n))) / 256 ^ (n - 1) := by
      rw [Nat.le_div_iff_mul_le hD]
      omega
    rw [hbyte, Nat.mod_eq_of_lt hTdiv_lt]
    exact hTdiv_ge

/-- Decoding the packed integer payload recovers the value. -/
theorem unpack_pack_integer (i : Int) (hlo : -(2 ^ 63 : Int) ≤ i)
    (hhi : i < (2 ^ 63 : Int)) (rest : List Nat) :
    unpack_integer_value (pack_integer_value i ++ rest) = some (i, rest) := by
  obtain ⟨h1, h8, _, _, hnn, hng⟩ := intShrink_spec i hlo hhi
  have hpack : pack_integer_value i
      = pack_nnint (intShrink i (toU64 i) 8)
        ++ leBytesFixed (toU64 i) (intShrink i (toU64 i) 8) := rfl
  rw [hpack, pack_nnint_small _ h1 (by omega),
    unpack_integer_eval _ h1 h8 (toU64 i) rest]
  rcases le_or_lt 0 i with h0 | hneg
  · have hcast : (toU64 i : Int) = i := toU64_nonneg i h0 (by omega)
    obtain ⟨hmod, hbit⟩ := nonneg_byte_facts (toU64 i) _ h1 (hnn h0)
    rw [if_neg (by omega), hmod, hcast]
  · have hcast : (toU64 i : Int) = i + 2 ^ 64 := toU64_neg i (by omega) hneg
    obtain ⟨hmod, hbit⟩ :=
      neg_byte_facts (toU64 i) _ h1 h8 (toU64_lt i) (hng hneg)
    rw [if_pos hbit, hmod]
    have hcp : ((2 ^ (8 * intShrink i (toU64 i) 8) : Nat) : Int)
        = (2 : Int) ^ (8 * intShrink i (toU64 i) 8) := by push_cast; rfl
    have hcp64 : ((2 ^ 64 : Nat) : Int) = (2 : Int) ^ 64 := by norm_cast
    have h8n64 : (2 : Nat) ^ (8 * intShrink i (toU64 i) 8) ≤ 2 ^ 64 :=
      Nat.pow_le_pow_right (by norm_num) (by omega)
    have hgoal : ((toU64 i - (2 ^ 64 - 2 ^ (8 * intShrink i (toU64 i) 8)) : Nat) : Int)
        - (2 : Int) ^ (8 * intShrink i (toU64 i) 8) = i := by
      have hu64 : toU64 i < 2 ^ 64 := toU64_lt i
      have hfits : 2 ^ 64 - 2 ^ (8 * intShrink i (toU64 i) 8 - 1) ≤ toU64 i := hng hneg
      have hle : (2 : Nat) ^ (8 * intShrink i (toU64 i) 8 - 1)
          ≤ 2 ^ (8 * intShrink i (toU64 i) 8) :=
        Nat.pow_le_pow_right (by norm_num) (by omega)
      omega
    rw [hgoal]

/-- Claim C3: for every `i` in `[-2^63, 2^63)`, the encoder's integer
payload is the NNINT encoding of a width `n` followed by the `n`
little-endian bytes of the two's-complement pattern, where `n` is the
smallest width in `[1..8]` in which `i` is representable as a signed value,
and `unpack_integer_value` applied to that payload (sign-extending from bit
`n*8-1`) reproduces exactly `i`. -/
theorem integer_pack_width_roundtrip (i : Int) (hlo : -(2 ^ 63 : Int) ≤ i)
    (hhi : i < (2 ^ 63 : Int)) (rest : List Nat) :
    ∃ n, pack_integer_value i = pack_nnint n ++ leBytesFixed (toU64 i) n
      ∧ pack_nnint n = [1, n]
      ∧ (leBytesFixed (toU64 i) n).length = n
      ∧ 1 ≤ n ∧ n ≤ 8
      ∧ sfits i n ∧ (∀ m, 1 ≤ m → sfits i m → n ≤ m)
      ∧ unpack_integer_value (pack_integer_value i ++ rest) = some (i, rest) := by
  obtain ⟨h1, h8, hfit, hmin, _, _⟩ := intShrink_spec i hlo hhi
  exact ⟨intShrink i (toU64 i) 8, rfl, pack_nnint_small _ h1 (by omega),
    leBytesFixed_length _ _, h1, h8, hfit, hmin,
    unpack_pack_integer i hlo hhi rest⟩

/-- Witness for C3 at `i = -300`. -/
theorem integer_pack_width_roundtrip_witness :
    (-(2 ^ 63 : Int) ≤ -300 ∧ (-300 : Int) < 2 ^ 63) ∧
    (∃ n, pack_integer_value (-300) = pack_nnint n ++ leBytesFixed (toU64 (-300)) n
      ∧ pack_nnint n = [1, n]
      ∧ (leBytesFixed (toU64 (-300)) n).length = n
      ∧ 1 ≤ n ∧ n ≤ 8
      ∧ sfits (-300) n ∧ (∀ m, 1 ≤ m → sfits (-300) m → n ≤ m)
      ∧ unpack_integer_value (pack_integer_value (-300) ++ [7]) = some (-300, [7])) :=
  ⟨⟨by norm_num, by norm_num⟩,
    integer_pack_width_roundtrip (-300) (by norm_num) (by norm_num) [7]⟩

/-- Counterexample for claim C6: a 12-byte file whose header declares one
entry (`12 + 1 * 10 > 12`) is nevertheless loaded successfully;
`bej_dictionary_load` never checks the entry-table bound. -/
theorem dictionary_load_ignores_entry_bound :
    bej_dictionary_load [0, 0, 1, 0, 12, 0, 0, 0, 0, 0, 0, 0]
        = some ⟨[0, 0, 1, 0, 12, 0, 0, 0, 0, 0, 0, 0]⟩
    ∧ entryCountOf ⟨[0, 0, 1, 0, 12, 0, 0, 0, 0, 0, 0, 0]⟩ = 1
    ∧ 12 + 1 * 10 > ([0, 0, 1, 0, 12, 0, 0, 0, 0, 0, 0, 0] : List Nat).length := by
  refine ⟨rfl, ?_, by decide⟩
  decide

/-- Claim C6 as amended: `bej_dictionary_load` fails exactly on files
shorter than 12 bytes; the `12 + entry_count * 10 ≤ size` bound is not
enforced by the loader (it is checked later, by `bej_dict_stream_init` /
`read_dictionary_header`, which leaves the cursor empty instead). -/
theorem dictionary_load_size_check (file_bytes : List Nat) :
    (bej_dictionary_load file_bytes).isSome ↔ 12 ≤ file_bytes.length := by
  unfold bej_dictionary_load
  by_cases h0 : file_bytes.length = 0
  · simp [h0]
  · by_cases h12 : 12 ≤ file_bytes.length
    · simp [h0, h12]
    · simp [h0, h12]

/-- Companion fact for the amended C6: when the entry-table bound fails,
the full-walk cursor built by `bej_dict_stream_init` yields no entries. -/
theorem stream_init_empty_of_bad_entry_bound (d : bej_dictionary)
    (h : ¬ 12 + entryCountOf d * 10 ≤ d.bytes.length) :
    bej_dict_stream_next (bej_dict_stream_init d) = none := by
  unfold bej_dict_stream_init
  rw [if_neg (by tauto)]
  unfold bej_dict_stream_next bej_dict_stream_has_entry
  norm_num

/-- Witness for `stream_init_empty_of_bad_entry_bound`. -/
theorem stream_init_empty_of_bad_entry_bound_witness :
    bej_dict_stream_next
        (bej_dict_stream_init ⟨[0, 0, 1, 0, 12, 0, 0, 0, 0, 0, 0, 0]⟩) = none :=
  stream_init_empty_of_bad_entry_bound ⟨[0, 0, 1, 0, 12, 0, 0, 0, 0, 0, 0, 0]⟩
    (by decide)

theorem countResolved_eq (entries : List (List Nat × json_value))
    (parent : bej_dict_entry) (schema : bej_dictionary)
    (annot : Option bej_dictionary) :
    countResolved entries parent schema annot
      = (filterResolved entries parent schema annot).length := by
  unfold countResolved filterResolved
  have key : ∀ (l : List (List Nat × json_value)) (acc : Nat),
      List.foldl (fun acc kv =>
          if (resolveProp kv.1 parent schema annot).isSome then acc + 1 else acc)
        acc l
      = acc + (l.filter (fun kv => (resolveProp kv.1 parent schema annot).isSome)).length := by
    intro l
    induction l with
    | nil => intro acc; simp
    | cons kv rest ih =>
      intro acc
      by_cases hp : (resolveProp kv.1 parent schema annot).isSome
      · simp only [List.foldl_cons, List.filter_cons, hp, if_pos, if_true,
          List.length_cons, ih]
        omega
      · simp only [List.foldl_cons, List.filter_cons, hp, if_false, ih]
        simp [hp]
  simpa using key entries 0

theorem encodePropsBody_filter
    (ev : bej_dict_entry → Nat → json_value → Option (List Nat))
    (entries : List (List Nat × json_value)) (parent : bej_dict_entry)
    (schema : bej_dictionary) (annot : Option bej_dictionary) :
    encodePropsBody ev (filterResolved entries parent schema annot) parent schema annot
      = encodePropsBody ev entries parent schema annot := by
  induction entries with
  | nil => rfl
  | cons kv rest ih =>
    obtain ⟨k, v⟩ := kv
    cases hres : resolveProp k parent schema annot with
    | none =>
      have hp : (resolveProp k parent schema annot).isSome = false := by
        simp [hres]
      simp only [filterResolved] at ih
      simp [filterResolved, List.filter_cons, hp, ih, encodePropsBody, hres]
    | some es =>
      have hp : (resolveProp k parent schema annot).isSome = true := by
        simp [hres]
      simp only [filterResolved] at ih
      simp [filterResolved, List.filter_cons, hp, encodePropsBody, hres, ih]

theorem filterResolved_idem (entries : List (List Nat × json_value))
    (parent : bej_dict_entry) (schema : bej_dictionary)
    (annot : Option bej_dictionary) :
    filterResolved (filterResolved entries parent schema annot) parent schema annot
      = filterResolved entries parent schema annot := by
  unfold filterResolved
  rw [List.filter_filter]
  apply List.filter_congr
  intro kv _
  simp

/-- Claim C8: when encoding a JSON object, properties whose key resolves
to no entry in the applicable dictionary are silently skipped — the NNINT
property count at the start of the SET payload equals the number of
resolved properties, and the emitted bytes equal those produced for the
same object with the unresolved properties removed. -/
theorem encode_skips_unresolved (fuel : Nat)
    (entries : List (List Nat × json_value)) (parent : bej_dict_entry)
    (schema : bej_dictionary) (annot : Option bej_dictionary) :
    encode_properties (encode_value schema annot fuel) (.object entries)
        parent schema annot
      = encode_properties (encode_value schema annot fuel)
          (.object (filterResolved entries parent schema annot)) parent schema annot
    ∧ encode_properties (encode_value schema annot fuel) (.object entries)
        parent schema annot
      = (encodePropsBody (encode_value schema annot fuel) entries parent schema
          annot).map
          (fun body =>
            pack_nnint (filterResolved entries parent schema annot).length ++ body) := by
  constructor
  · simp only [encode_properties,
      encodePropsBody_filter (encode_value schema annot fuel) entries parent schema
        annot]
    cases encodePropsBody (encode_value schema annot fuel) entries parent schema
        annot with
    | none => rfl
    | some body =>
      simp only [countResolved_eq, filterResolved_idem]
  · simp only [encode_properties, countResolved_eq]
    cases encodePropsBody (encode_value schema annot fuel) entries parent schema
        annot with
    | none => rfl
    | some body => rfl

/-- Destructuring a successful `encode_value`: the output is the SFL with
sequence `(sequence << 1) | selector` followed by the payload the format
switch produced. -/
theorem encode_value_shape (schema : bej_dictionary) (annot : Option bej_dictionary)
    (fuel : Nat) (e : bej_dict_entry) (sel : Nat) (v : json_value) (bytes : List Nat)
    (hev : encode_value schema annot fuel e sel v = some bytes) :
    ∃ payload,
      encode_payload schema annot (encode_value schema annot (fuel - 1)) e sel v
        = some payload
      ∧ bytes = pack_sfl (2 * e.sequence + sel) e.format payload.length ++ payload := by
  match fuel with
  | 0 => simp [encode_value] at hev
  | f + 1 =>
    simp only [encode_value] at hev
    cases hpay : encode_payload schema annot (encode_value schema annot f) e sel v with
    | none => rw [hpay] at hev; exact absurd hev (by simp)
    | some payload =>
      rw [hpay] at hev
      simp only [Option.some.injEq] at hev
      exact ⟨payload, by simpa using hpay, hev.symm⟩

/-- Claim C9: every resolved property whose key starts with `@` gets
selector 1 and is looked up in the annotation dictionary; every other
resolved property gets selector 0 and is looked up in the schema
dictionary restricted to the parent's child subset; the emitted SFL for
the property carries the on-wire sequence NNINT `(sequence << 1) | selector`. -/
theorem selector_routing (k : List Nat) (v : json_value)
    (rest : List (List Nat × json_value)) (parent : bej_dict_entry)
    (schema : bej_dictionary) (annot : Option bej_dictionary) (fuel : Nat)
    (e : bej_dict_entry) (sel : Nat)
    (hres : resolveProp k parent schema annot = some (e, sel)) :
    sel = (if k.headD 0 = 64 then 1 else 0)
    ∧ (k.headD 0 = 64 → ∃ a, annot = some a ∧
        bej_dict_find_child_by_name (some a) 0 a.bytes.length k = some e)
    ∧ (k.headD 0 ≠ 64 →
        bej_dict_find_child_by_name (some schema) parent.child_pointer
          parent.child_count k = some e)
    ∧ (∀ out, encodePropsBody (encode_value schema annot fuel) ((k, v) :: rest)
          parent schema annot = some out →
        ∃ payload tail,
          encode_value schema annot fuel e sel v
            = some (pack_sfl (2 * e.sequence + sel) e.format payload.length
                ++ payload)
          ∧ out = (pack_sfl (2 * e.sequence + sel) e.format payload.length
                ++ payload) ++ tail) := by
  have hroute : sel = (if k.headD 0 = 64 then 1 else 0)
      ∧ (k.headD 0 = 64 → ∃ a, annot = some a ∧
          bej_dict_find_child_by_name (some a) 0 a.bytes.length k = some e)
      ∧ (k.headD 0 ≠ 64 →
          bej_dict_find_child_by_name (some schema) parent.child_pointer
            parent.child_count k = some e) := by
    by_cases hat : k.headD 0 = 64
    · have hat2 : k.head?.getD 0 = 64 := by rw [← List.headD_eq_head?]; exact hat
      simp only [resolveProp, hat, if_pos, if_true] at hres
      cases hann : annot with
      | none => rw [hann] at hres; simp at hres
      | some a =>
        rw [hann] at hres
        cases hfind : bej_dict_find_child_by_name (some a) 0 a.bytes.length k with
        | none =>
          simp only [hfind] at hres
          exact absurd hres (by simp)
        | some child =>
          simp only [hfind, Option.some.injEq, Prod.mk.injEq] at hres
          obtain ⟨rfl, rfl⟩ := hres
          refine ⟨?_, fun _ => ⟨a, rfl, hfind⟩, fun h => absurd hat h⟩
          simp [hat2]
    · have hat2 : ¬ k.head?.getD 0 = 64 := by rw [← List.headD_eq_head?]; exact hat
      simp only [resolveProp] at hres
      rw [if_neg hat] at hres
      simp only [if_neg (by norm_num : ¬ (0 : Nat) = 1)] at hres
      cases hfind : bej_dict_find_child_by_name (some schema) parent.child_pointer
          parent.child_count k with
      | none =>
        simp only [hfind] at hres
        exact absurd hres (by simp)
      | some child =>
        simp only [hfind, Option.some.injEq, Prod.mk.injEq] at hres
        obtain ⟨rfl, rfl⟩ := hres
        refine ⟨?_, fun h => absurd h hat, fun _ => rfl⟩
        simp [hat2]
  refine ⟨hroute.1, hroute.2.1, hroute.2.2, ?_⟩
  intro out hout
  simp only [encodePropsBody, hres] at hout
  cases hev : encode_value schema annot fuel e sel v with
  | none => rw [hev] at hout; exact absurd hout (by simp)
  | some bytes =>
    rw [hev] at hout
    cases htail : encodePropsBody (encode_value schema annot fuel) rest parent
        schema annot with
    | none => rw [htail] at hout; exact absurd hout (by simp)
    | some tail =>
      rw [htail] at hout
      simp only [Option.some.injEq] at hout
      subst hout
      obtain ⟨payload, _, hshape⟩ :=
        encode_value_shape schema annot fuel e sel v bytes hev
      exact ⟨payload, tail, by rw [hshape], by rw [hshape]⟩

/-- Claim C1 (evaluation of the failing input): encoding
`{"S": "a\"b"}` succeeds, but the decoder prints the string bytes
unescaped, producing the text `{"S":"a"b"}` — not valid JSON — which
`json_parse` rejects, so `bej_decode_buffer` returns `NULL` instead of a
tree deep-equal to the input. -/
theorem roundtrip_unescaped_string_bug :
    bej_encode_stream 3 exJ dictS (some annotZ)
      = some [0, 240, 241, 241, 0, 0, 0, 1, 0, 0, 1, 13, 1, 1,
          1, 0, 80, 1, 6, 1, 4, 97, 34, 98, 0]
    ∧ bej_decode_stream 4 [0, 240, 241, 241, 0, 0, 0, 1, 0, 0, 1, 13, 1, 1,
          1, 0, 80, 1, 6, 1, 4, 97, 34, 98, 0] dictS (some annotZ)
      = some [123, 34, 83, 34, 58, 34, 97, 34, 98, 34, 125]
    ∧ json_parse [123, 34, 83, 34, 58, 34, 97, 34, 98, 34, 125] = none
    ∧ bej_decode_buffer 4 [0, 240, 241, 241, 0, 0, 0, 1, 0, 0, 1, 13, 1, 1,
          1, 0, 80, 1, 6, 1, 4, 97, 34, 98, 0] dictS (some annotZ) = none :=
  ⟨rfl, rfl, rfl, rfl⟩

/-- Claim C7 (evaluation of the failing input): the annotation lookup
scans entries from byte offset 0 with the dictionary's byte size as the
count — not from offset 12 — so the `@c` entry laid out at offset 12 of
`dictA` is found by neither the encoder's name lookup nor the decoder's
sequence lookup, and encoding `{"@c": 7}` silently drops the property
(SET payload count 0); a scan from offset 12, as the claim states, finds
it. -/
theorem annotation_lookup_scans_offset_zero :
    bej_dict_find_child_by_name (some dictA) 0 dictA.bytes.length [64, 99] = none
    ∧ bej_dict_find_child_by_name (some dictA) 12 2 [64, 99]
        = some ⟨3, 0, 5, 0, 0, some [64, 99]⟩
    ∧ get_entry_by_seq (some dictA) 0 dictA.bytes.length 5 = none
    ∧ get_entry_by_seq (some dictA) 12 65535 5 = some ⟨3, 0, 5, 0, 0, some [64, 99]⟩
    ∧ bej_encode_stream 3 (.object [([64, 99], .number 7)]) dictS (some dictA)
        = some [0, 240, 241, 241, 0, 0, 0, 1, 0, 0, 1, 2, 1, 0] :=
  ⟨rfl, rfl, rfl, rfl, rfl⟩

/-- Counterexample for claim C4: for the `Enabled` child with sequence 2,
the encoder's enum payload is `01 02 01 02` — NNINT(2) (the byte length
of the inner NNINT) followed by the inner NNINT of the sequence — not the
claimed `NNINT(1)` followed by the sequence bytes (neither `01 01 01 02`
nor `01 01 02`). -/
theorem pack_enum_value_counterexample :
    pack_enum_value (some dictE) stateEntry enabledName = some [1, 2, 1, 2]
    ∧ ([1, 2, 1, 2] : List Nat) ≠ [1, 1, 1, 2]
    ∧ ([1, 2, 1, 2] : List Nat) ≠ [1, 1, 2] := by
  refine ⟨rfl, by decide, by decide⟩

theorem read_u16_lt (bytes : List Nat) (p : Nat) : read_u16 bytes p < 65536 := by
  unfold read_u16 getByte
  have h1 : bytes.getD p 0 % 256 < 256 := Nat.mod_lt _ (by norm_num)
  have h2 : bytes.getD (p + 1) 0 % 256 < 256 := Nat.mod_lt _ (by norm_num)
  omega

theorem bej_dict_stream_next_seq_lt (s : bej_dict_stream) (e : bej_dict_entry)
    (s' : bej_dict_stream) (h : bej_dict_stream_next s = some (e, s')) :
    e.sequence < 65536 := by
  unfold bej_dict_stream_next at h
  split at h
  · exact absurd h (by simp)
  · split at h
    · exact absurd h (by simp)
    · simp only [Option.some.injEq, Prod.mk.injEq] at h
      obtain ⟨he, -⟩ := h
      rw [← he]
      exact read_u16_lt _ _

theorem findNameLoop_seq_lt : ∀ fuel (s : bej_dict_stream) (name : List Nat)
    (e : bej_dict_entry), findNameLoop fuel s name = some e → e.sequence < 65536 := by
  intro fuel
  induction fuel with
  | zero => intro s name e h; simp [findNameLoop] at h
  | succ f ih =>
    intro s name e h
    cases hn : bej_dict_stream_next s with
    | none => simp [findNameLoop, hn] at h
    | some es =>
      obtain ⟨e0, s'⟩ := es
      simp only [findNameLoop, hn] at h
      cases hname : e0.name with
      | none =>
        simp only [hname] at h
        exact ih s' name e h
      | some nm =>
        simp only [hname] at h
        by_cases heq : nm = name
        · rw [if_pos heq] at h
          simp only [Option.some.injEq] at h
          rw [← h]
          exact bej_dict_stream_next_seq_lt s e0 s' hn
        · rw [if_neg heq] at h
          exact ih s' name e h

theorem find_child_seq_lt (dict : Option bej_dictionary) (off cnt : Nat)
    (name : List Nat) (e : bej_dict_entry)
    (h : bej_dict_find_child_by_name dict off cnt name = some e) :
    e.sequence < 65536 := by
  cases dict with
  | none => simp [bej_dict_find_child_by_name] at h
  | some d => exact findNameLoop_seq_lt _ _ _ _ h

theorem leBytesAux_two_small (s : Nat) (h0 : s ≠ 0) (h : s < 256) :
    leBytesAux s 2 = [s] := by
  show (if s = 0 then [] else s % 256 :: leBytesAux (s / 256) 1) = [s]
  rw [if_neg h0, Nat.mod_eq_of_lt h, Nat.div_eq_of_lt h, leBytesAux_zero]

theorem leBytesAux_two_large (s : Nat) (h : 256 ≤ s) (h2 : s < 65536) :
    leBytesAux s 2 = [s % 256, s / 256] := by
  show (if s = 0 then [] else s % 256 :: leBytesAux (s / 256) 1) = _
  rw [if_neg (by omega)]
  congr 1
  show (if s / 256 = 0 then [] else s / 256 % 256 :: leBytesAux (s / 256 / 256) 0)
      = [s / 256]
  rw [if_neg (by omega), Nat.mod_eq_of_lt (by omega)]
  have hz : leBytesAux (s / 256 / 256) 0 = [] := rfl
  rw [hz]

theorem leBytesFixed_one (s : Nat) : leBytesFixed s 1 = [s % 256] := by
  have h : List.range 1 = [0] := rfl
  simp [leBytesFixed, h]

theorem leBytesFixed_two (s : Nat) : leBytesFixed s 2 = [s % 256, s / 256 % 256] := by
  have h : List.range 2 = [0, 1] := rfl
  simp [leBytesFixed, h]

/-- Claim C4 as amended: for an ENUM property whose string names a child
with sequence `s` (a `u16`) of byte width `w`, the encoder emits
`NNINT(w + 1)` — the byte length of the inner NNINT encoding of `s` —
followed by that inner NNINT, `[w] ++ (w little-endian bytes of s)`; a
string naming no child is an error. -/
theorem pack_enum_value_spec (dict : Option bej_dictionary)
    (entry : bej_dict_entry) (name : List Nat) :
    (bej_dict_find_child_by_name dict entry.child_pointer entry.child_count name
        = none → pack_enum_value dict entry name = none)
    ∧ ∀ e, bej_dict_find_child_by_name dict entry.child_pointer entry.child_count
        name = some e →
      e.sequence < 65536 ∧
      pack_enum_value dict entry name
        = pack_nnint ((if e.sequence < 256 then 1 else 2) + 1)
          ++ ((if e.sequence < 256 then 1 else 2)
            :: leBytesFixed e.sequence (if e.sequence < 256 then 1 else 2)) := by
  constructor
  · intro h
    simp [pack_enum_value, h]
  · intro e hfind
    have hseq := find_child_seq_lt _ _ _ _ _ hfind
    refine ⟨hseq, ?_⟩
    unfold pack_enum_value
    rw [hfind]
    by_cases h0 : e.sequence = 0
    · simp [h0, leBytesFixed_one]
    · by_cases hlt : e.sequence < 256
      · rw [if_pos hlt]
        simp only [if_neg h0, leBytesAux_two_small e.sequence h0 hlt,
          leBytesFixed_one, Nat.mod_eq_of_lt hlt]
        rfl
      · rw [if_neg hlt]
        simp only [if_neg h0, leBytesAux_two_large e.sequence (by omega) hseq,
          leBytesFixed_two]
        have hd : e.sequence / 256 % 256 = e.sequence / 256 :=
          Nat.mod_eq_of_lt (by omega)
        rw [hd]
        rfl

/-- Witness for the amended C4 at the `Enabled`/sequence-2 child. -/
theorem pack_enum_value_spec_witness :
    bej_dict_find_child_by_name (some dictE) stateEntry.child_pointer
        stateEntry.child_count enabledName = some enabledEntry
    ∧ (enabledEntry.sequence < 65536 ∧
      pack_enum_value (some dictE) stateEntry enabledName
        = pack_nnint ((if enabledEntry.sequence < 256 then 1 else 2) + 1)
          ++ ((if enabledEntry.sequence < 256 then 1 else 2)
            :: leBytesFixed enabledEntry.sequence
              (if enabledEntry.sequence < 256 then 1 else 2))) :=
  ⟨by decide,
    (pack_enum_value_spec (some dictE) stateEntry enabledName).2 enabledEntry
      (by decide)⟩

/-- Claim C10: the decoder's ENUM handler reads the leading NNINT length
field but never validates it — for every value `L` of that field, even
one that disagrees with the bytes actually consumed, decoding succeeds
and emits the matched child's name whenever the inner NNINT matches a
child sequence. -/
theorem enum_length_field_unchecked (L v : Nat) (hv : v < 2 ^ 64)
    (dict : Option bej_dictionary) (entry e : bej_dict_entry) (rest : List Nat)
    (hfind : get_entry_by_seq dict entry.child_pointer entry.child_count v
      = some e) :
    unpack_enum_text dict entry (pack_nnint L ++ (pack_nnint v ++ rest))
      = some ([34] ++ e.name.getD [] ++ [34], rest) := by
  unfold unpack_enum_text
  simp only [unpack_pack_nnint, Nat.mod_eq_of_lt hv, hfind]

/-- Witness for C10 with a bogus length field of 99 (the real inner NNINT
is two bytes long). -/
theorem enum_length_field_unchecked_witness :
    (2 : Nat) < 2 ^ 64
    ∧ get_entry_by_seq (some dictE) stateEntry.child_pointer
        stateEntry.child_count 2 = some enabledEntry
    ∧ unpack_enum_text (some dictE) stateEntry
        (pack_nnint 99 ++ (pack_nnint 2 ++ [5]))
      = some ([34] ++ enabledEntry.name.getD [] ++ [34], [5]) :=
  ⟨by norm_num, by decide,
    enum_length_field_unchecked 99 2 (by norm_num) (some dictE) stateEntry
      enabledEntry [5] (by decide)⟩

/-- Witness for C9 at the annotation key `@k` resolved through `dictAW`. -/
theorem selector_routing_witness :
    resolveProp [64, 107] parentW schemaW (some dictAW) = some (entryAW, 1)
    ∧ ((1 : Nat) = (if ([64, 107] : List Nat).headD 0 = 64 then 1 else 0)
      ∧ (([64, 107] : List Nat).headD 0 = 64 →
          ∃ a, (some dictAW : Option bej_dictionary) = some a ∧
            bej_dict_find_child_by_name (some a) 0 a.bytes.length [64, 107]
              = some entryAW)
      ∧ (([64, 107] : List Nat).headD 0 ≠ 64 →
          bej_dict_find_child_by_name (some schemaW) parentW.child_pointer
            parentW.child_count [64, 107] = some entryAW)
      ∧ (∀ out, encodePropsBody (encode_value schemaW (some dictAW) 3)
            [([64, 107], json_value.number 5)] parentW schemaW (some dictAW)
            = some out →
          ∃ payload tail,
            encode_value schemaW (some dictAW) 3 entryAW 1 (json_value.number 5)
              = some (pack_sfl (2 * entryAW.sequence + 1) entryAW.format
                  payload.length ++ payload)
            ∧ out = (pack_sfl (2 * entryAW.sequence + 1) entryAW.format
                  payload.length ++ payload) ++ tail)) :=
  ⟨by decide,
    selector_routing [64, 107] (json_value.number 5) [] parentW schemaW
      (some dictAW) 3 entryAW 1 (by decide)⟩

/-- Witness for the amended C6 at a concrete 12-byte file. -/
theorem dictionary_load_size_check_witness :
    (bej_dictionary_load [0, 0, 1, 0, 12, 0, 0, 0, 0, 0, 0, 0]).isSome
      ↔ 12 ≤ ([0, 0, 1, 0, 12, 0, 0, 0, 0, 0, 0, 0] : List Nat).length :=
  dictionary_load_size_check [0, 0, 1, 0, 12, 0, 0, 0, 0, 0, 0, 0]

/-- Witness for C8 at a concrete object with one resolved property (`S`)
and one unresolved property (`Bogus`). -/
theorem encode_skips_unresolved_witness :
    encode_properties (encode_value dictS (some annotZ) 3)
        (.object [([83], .string [97]), ([66, 111, 103, 117, 115], .number 1)])
        ⟨0, 0, 0, 22, 1, some [84]⟩ dictS (some annotZ)
      = encode_properties (encode_value dictS (some annotZ) 3)
          (.object (filterResolved
            [([83], .string [97]), ([66, 111, 103, 117, 115], .number 1)]
            ⟨0, 0, 0, 22, 1, some [84]⟩ dictS (some annotZ)))
          ⟨0, 0, 0, 22, 1, some [84]⟩ dictS (some annotZ)
    ∧ encode_properties (encode_value dictS (some annotZ) 3)
        (.object [([83], .string [97]), ([66, 111, 103, 117, 115], .number 1)])
        ⟨0, 0, 0, 22, 1, some [84]⟩ dictS (some annotZ)
      = (encodePropsBody (encode_value dictS (some annotZ) 3)
          [([83], .string [97]), ([66, 111, 103, 117, 115], .number 1)]
          ⟨0, 0, 0, 22, 1, some [84]⟩ dictS (some annotZ)).map
          (fun body =>
            pack_nnint (filterResolved
              [([83], .string [97]), ([66, 111, 103, 117, 115], .number 1)]
              ⟨0, 0, 0, 22, 1, some [84]⟩ dictS (some annotZ)).length ++ body) :=
  encode_skips_unresolved 3
    [([83], .string [97]), ([66, 111, 103, 117, 115], .number 1)]
    ⟨0, 0, 0, 22, 1, some [84]⟩ dictS (some annotZ)

end Bej
